import Mathlib

/-!
# EZPROM: a directory-packed record store over a fixed-capacity byte medium

Shallow embedding of the EZPROM library (EZPROM.h / EZPROM.cpp).  The EEPROM
is modelled as a list of byte values whose length is the capacity `E`
(`EEPROM.length()` in the source).  All uint16 arithmetic on addresses and
sizes is modelled with explicit reduction modulo 2^16; the object count is a
uint8.  Every operation is a pure function threading the memory state
explicitly; operations that only read return the memory unchanged by
construction, mirroring the absence of write calls in their source.
-/

namespace EZPROM

/-- The EEPROM contents: one `Nat` per byte cell, capacity = list length. -/
abbrev Mem := List Nat

/-- uint16 arithmetic: reduce modulo 2^16. -/
def w16 (n : Nat) : Nat := n % 65536

/-- uint16 subtraction `a - b` (with wrap-around), for `a b < 2^16`.
Used for `EEPROM.length() - (sizeof(uint8_t) + sizeof(ObjectData) * objectAmount)`. -/
def sub16 (a b : Nat) : Nat := (a + 65536 - b % 65536) % 65536

/-- Models `EEPROM.read(a)`: absent cells read as 0 (out-of-range access is outside
the library's contract). -/
def readByte (mem : Mem) (a : Nat) : Nat := mem.getD a 0

/-- Models `EEPROM.update(a, v)`: writes only if the stored value differs (the
wear-reduction contract).  `EEPROM.put` uses the same semantics per byte. -/
def updateByte (mem : Mem) (a v : Nat) : Mem :=
  if readByte mem a = v then mem else mem.set a v

/-- Models struct ObjectData, with a uint8 field `id` and a uint16 field
`size` — 3 bytes on the byte-aligned target: `id` at offset 0, `size`
little-endian at offsets 1–2. -/
structure ObjectData where
  id : Nat
  size : Nat
deriving DecidableEq, Repr

/-- Models `EEPROM.get(a, objectData)`: read one 3-byte directory entry. -/
def loadEntry (mem : Mem) (a : Nat) : ObjectData :=
  { id := readByte mem a
    size := readByte mem (w16 (a + 1)) + 256 * readByte mem (w16 (a + 2)) }

/-- Models `EEPROM.put(a, objectData)`: write one 3-byte directory entry
(update-if-changed per byte, like all `EEPROM.put` calls). -/
def writeEntry (mem : Mem) (a : Nat) (od : ObjectData) : Mem :=
  updateByte (updateByte (updateByte mem (w16 a) od.id)
      (w16 (a + 1)) (od.size % 256))
    (w16 (a + 2)) (od.size / 256 % 256)

/-- The id-search loop shared by `save`, `load`, `exists`, `remove`,
`getAddress`, `getObjectData`: index of the first entry whose `id` matches. -/
def findIdAux : List ObjectData → Nat → Nat → Option Nat
  | [], _, _ => none
  | o :: rest, id, i => if o.id = id then some i else findIdAux rest id (i + 1)

def findId (objects : List ObjectData) (id : Nat) : Option Nat :=
  findIdAux objects id 0

/-- Models `EZPROM::getObjectAmount()`: the count byte at the last address. -/
def getObjectAmount (E : Nat) (mem : Mem) : Nat :=
  readByte mem (sub16 E 1)

/-- Models `EZPROM::loadObjectData`: read `objectAmount` 3-byte entries starting at
`EEPROM.length() - (1 + 3 * objectAmount)` (uint16 arithmetic). -/
def loadObjectData (E : Nat) (mem : Mem) : List ObjectData :=
  let objectAmount := getObjectAmount E mem
  let startingAddress := sub16 E (1 + 3 * objectAmount)
  (List.range objectAmount).map (fun i => loadEntry mem (w16 (startingAddress + 3 * i)))

/-- The entry-writing loop of `EZPROM::saveObjectData`:
`EEPROM.put(startingAddress + i * sizeof(ObjectData), objectData[i])`. -/
def writeEntries (mem : Mem) (start : Nat) (objectData : List ObjectData)
    (n : Nat) : Mem :=
  (List.range n).foldl
    (fun m i => writeEntry m (w16 (start + 3 * i)) (objectData.getD i ⟨0, 0⟩)) mem

/-- Models `EZPROM::saveObjectData`: write the first `objectAmount` entries at the
directory block, then the count byte at the last address. -/
def saveObjectData (E : Nat) (mem : Mem) (objectData : List ObjectData)
    (objectAmount : Nat) : Mem :=
  let startingAddress := sub16 E (1 + 3 * objectAmount)
  updateByte (writeEntries mem startingAddress objectData objectAmount)
    (sub16 E 1) objectAmount

/-- Models `EZPROM::getAddress(ObjectData*, index)` (private overload): prefix sum of
the sizes of entries before `index`, accumulated in a uint16. -/
def getAddressAt (objects : List ObjectData) (index : Nat) : Nat :=
  w16 (((objects.take index).map (fun o => o.size)).sum)

/-- Sum of the record sizes of a directory. -/
def sizeSum (l : List ObjectData) : Nat := (l.map (fun o => o.size)).sum

/-- Models `EZPROM::ramToEEPROM(address, object, size)`: copy `size` bytes of the
source buffer to EEPROM with `EEPROM.update`, addresses in uint16. -/
def ramToEEPROM (mem : Mem) (address : Nat) (src : List Nat) (size : Nat) : Mem :=
  (List.range size).foldl
    (fun m i => updateByte m (w16 (address + i)) (src.getD i 0)) mem

/-- The inner copy loop of `EZPROM::remove`:
`EEPROM.update(newAddress + j, EEPROM.read(oldAddress + j))` for `j < size`. -/
def copyBytes (mem : Mem) (newAddress oldAddress size : Nat) : Mem :=
  (List.range size).foldl
    (fun m j => updateByte m (w16 (newAddress + j)) (readByte m (w16 (oldAddress + j)))) mem

/-- Models `EZPROM::reset()`: `EEPROM.put(EEPROM.length() - 1, (uint8_t) 0)`. -/
def resetOp (E : Nat) (mem : Mem) : Mem :=
  updateByte mem (sub16 E 1) 0

/-- Models `EZPROM::exists(id)`: directory scan; only reads, so the memory component
of the result is the input memory. -/
def existsOp (E : Nat) (mem : Mem) (id : Nat) : Bool × Mem :=
  let objects := loadObjectData E mem
  ((findId objects id).isSome, mem)

/-- Models `EZPROM::getObjectData(id)`: first matching entry, or the
`{id, size = 0}` sentinel; read-only. -/
def getObjectDataOp (E : Nat) (mem : Mem) (id : Nat) : ObjectData × Mem :=
  let objects := loadObjectData E mem
  match findId objects id with
  | some i => (objects.getD i ⟨0, 0⟩, mem)
  | none => ({ id := id, size := 0 }, mem)

/-- Models `EZPROM::getAddress(id)` (public overload): prefix-sum address of the
first matching entry, or `EEPROM.length()` if absent; read-only. -/
def getAddressOf (E : Nat) (mem : Mem) (id : Nat) : Nat × Mem :=
  let objects := loadObjectData E mem
  match findId objects id with
  | some i => (getAddressAt objects i, mem)
  | none => (E, mem)

/-- The copy loop of `EZPROM::load`: `ram[i] = EEPROM.read(address + i)`
for `i < size`, into the destination buffer. -/
def loadBytes (mem : Mem) (address size : Nat) (dest : List Nat) : List Nat :=
  (List.range size).foldl
    (fun d i => d.set i (readByte mem (w16 (address + i)))) dest

/-- Models `EZPROM::load(id, dest)`: copy `entry.size` bytes from the record's
address into the destination buffer; read-only on EEPROM. -/
def loadOp (E : Nat) (mem : Mem) (id : Nat) (dest : List Nat) :
    Bool × List Nat × Mem :=
  let objects := loadObjectData E mem
  match findId objects id with
  | some index =>
      let address := getAddressAt objects index
      (true, loadBytes mem address (objects.getD index ⟨0, 0⟩).size dest, mem)
  | none => (false, dest, mem)

/-- The record-moving loop of `EZPROM::remove`: iteration `k` handles the
source loop's `i = index + k` (`for i = index; i < objectAmount - 1`),
copying `updatedObjects[i].size` bytes from the record's old address (under
`objects`) to its new address (under `updatedObjects`). -/
def slideLoop (mem : Mem) (objects updatedObjects : List ObjectData)
    (index j : Nat) : Mem :=
  (List.range j).foldl
    (fun m k =>
      copyBytes m (getAddressAt updatedObjects (index + k))
        (getAddressAt objects (index + k + 1))
        (updatedObjects.getD (index + k) ⟨0, 0⟩).size) mem

/-- Models `EZPROM::remove(id)`: drop the entry at the first matching index, slide
every following record down by the removed entry's size (ascending index
order, byte-by-byte), persist the shortened directory and the decremented
count.  No-op when the id is absent. -/
def removeOp (E : Nat) (mem : Mem) (id : Nat) : Mem :=
  let objectAmount := getObjectAmount E mem
  let objects := loadObjectData E mem
  match findId objects id with
  | none => mem
  | some index =>
      let updatedObjects := objects.eraseIdx index
      let mem1 := slideLoop mem objects updatedObjects index
        (objectAmount - 1 - index)
      saveObjectData E mem1 updatedObjects (objectAmount - 1)

/-- The shared tail of `EZPROM::save`: append `{id, size}` to the working
directory, write the record bytes at its prefix-sum address, persist the
directory with the incremented count (a uint8, hence the mod 256). -/
def saveInsert (E : Nat) (mem : Mem) (id : Nat) (src : List Nat) (size : Nat)
    (objects : List ObjectData) (objectAmount : Nat) : Bool × Mem :=
  let updatedObjects := objects ++ [⟨id, size⟩]
  let mem1 := ramToEEPROM mem (getAddressAt updatedObjects objectAmount) src size
  (true, saveObjectData E mem1 updatedObjects ((objectAmount + 1) % 256))

/-- Models `EZPROM::save(id, src, elements)`.  The record is the byte image of the
source object; its size `sizeof(T) * elements` is the length of `src`, as a
uint16.  Paths, in source order: same id and same size — in-place overwrite;
same id, different size, resizing allowed — space check (sizes of all other
entries + directory overhead for the current number of entries + new size,
uint16 accumulation), and only if it passes, `remove(id)` followed by a fresh
insert; otherwise, or when resizing is disallowed, fail with no mutation.
Fresh id — space check including one more directory entry, then insert. -/
def save (E : Nat) (mem : Mem) (overwriteDiffSize : Bool) (id : Nat)
    (src : List Nat) : Bool × Mem :=
  let size := w16 src.length
  let objectAmount := getObjectAmount E mem
  let objects := loadObjectData E mem
  match findId objects id with
  | some index =>
      if (objects.getD index ⟨0, 0⟩).size = size then
        (true, ramToEEPROM mem (getAddressAt objects index) src
          (objects.getD index ⟨0, 0⟩).size)
      else if overwriteDiffSize then
        let totalSize := w16 (sizeSum (objects.eraseIdx index)
          + (1 + 3 * objectAmount) + size)
        if totalSize ≤ E then
          saveInsert E (removeOp E mem id) id src size
            (objects.eraseIdx index) (objectAmount - 1)
        else (false, mem)
      else (false, mem)
  | none =>
      let totalSize := w16 (sizeSum objects + (1 + 3 * objectAmount) + size + 3)
      if totalSize ≤ E then
        saveInsert E mem id src size objects objectAmount
      else (false, mem)

/-- Models `EZPROM::isValid(uniqueInt, id)`: when the id exists with a 2-byte
record, load it into a uint16 (little-endian); otherwise the compared value
keeps its initialiser 0.  Returns whether it equals `uniqueInt`. -/
def isValid (E : Nat) (mem : Mem) (uniqueInt : Nat) (id : Nat) : Bool :=
  let curInt :=
    if (existsOp E mem id).1 ∧ (getObjectDataOp E mem id).1.size = 2 then
      let r := loadOp E mem id [0, 0]
      r.2.1.getD 0 0 + 256 * r.2.1.getD 1 0
    else 0
  curInt == uniqueInt

/-- Models `EZPROM::setUniqueId(uniqueInt, id)`: save the uint16 as a 2-byte
little-endian record under `id` (the instance's resize flag applies). -/
def setUniqueId (E : Nat) (mem : Mem) (overwriteDiffSize : Bool)
    (uniqueInt : Nat) (id : Nat) : Mem :=
  (save E mem overwriteDiffSize id [uniqueInt % 256, uniqueInt / 256 % 256]).2

/-- Models `EZPROM::setup(uniqueInt, id)`: if the stored unique value does not
match, reset and store it, returning true; otherwise return false with no
mutation. -/
def setup (E : Nat) (mem : Mem) (overwriteDiffSize : Bool)
    (uniqueInt : Nat) (id : Nat) : Bool × Mem :=
  if isValid E mem uniqueInt id then (false, mem)
  else (true, setUniqueId E (resetOp E mem) overwriteDiffSize uniqueInt id)

end EZPROM

namespace EZPROM

/-! ## Basic arithmetic and byte-cell lemmas -/

theorem w16_eq {n : Nat} (h : n < 65536) : w16 n = n := Nat.mod_eq_of_lt h

theorem sub16_eq {a b : Nat} (hb : b ≤ a) (ha : a < 65536) : sub16 a b = a - b := by
  unfold sub16
  omega

theorem length_updateByte (mem : Mem) (a v : Nat) :
    (updateByte mem a v).length = mem.length := by
  unfold updateByte
  split
  · rfl
  · exact mem.length_set a v

theorem getD_set_self {l : List Nat} {n : Nat} (v : Nat) (h : n < l.length) :
    (l.set n v).getD n 0 = v := by
  simp [List.getD_eq_getElem?_getD, List.getElem?_set_self h]

theorem getD_set_ne {l : List Nat} {n m : Nat} (v : Nat) (h : n ≠ m) :
    (l.set n v).getD m 0 = l.getD m 0 := by
  simp [List.getD_eq_getElem?_getD, List.getElem?_set_ne h]

theorem set_getD_self (l : List Nat) (n : Nat) : l.set n (l.getD n 0) = l := by
  by_cases h : n < l.length
  · apply List.ext_getElem (by simp)
    intro i h1 h2
    by_cases hi : n = i
    · subst hi
      simp [List.getD_eq_getElem?_getD, List.getElem?_eq_getElem h]
    · simp [List.getElem_set_ne hi]
  · exact List.set_eq_of_length_le (Nat.le_of_not_lt h)

theorem updateByte_eq_set (mem : Mem) (a v : Nat) :
    updateByte mem a v = mem.set a v := by
  unfold updateByte
  split
  · next h =>
    rw [← h]
    exact (set_getD_self mem a).symm
  · rfl

theorem updateByte_self {mem : Mem} {a v : Nat} (h : readByte mem a = v) :
    updateByte mem a v = mem := by
  unfold updateByte
  simp [h]

theorem readByte_updateByte_self {mem : Mem} {a : Nat} (v : Nat)
    (h : a < mem.length) :
    readByte (updateByte mem a v) a = v := by
  rw [updateByte_eq_set]
  exact getD_set_self v h

theorem readByte_updateByte_ne {mem : Mem} {a x : Nat} (v : Nat) (h : a ≠ x) :
    readByte (updateByte mem a v) x = readByte mem x := by
  rw [updateByte_eq_set]
  exact getD_set_ne v h

theorem readByte_lt {mem : Mem} (hm : ∀ b ∈ mem, b < 256) (a : Nat) :
    readByte mem a < 256 := by
  unfold readByte
  by_cases h : a < mem.length
  · rw [List.getD_eq_getElem?_getD, List.getElem?_eq_getElem h]
    exact hm _ (mem.getElem_mem h)
  · rw [List.getD_eq_getElem?_getD, List.getElem?_eq_none (Nat.le_of_not_lt h)]
    decide

theorem mem_updateByte {mem : Mem} {v : Nat} (hm : ∀ b ∈ mem, b < 256)
    (hv : v < 256) (a : Nat) : ∀ b ∈ updateByte mem a v, b < 256 := by
  rw [updateByte_eq_set]
  intro b hb
  rcases List.mem_or_eq_of_mem_set hb with h | h
  · exact hm b h
  · omega

end EZPROM

namespace EZPROM

/-! ## Characterization of the byte-copy loops -/

theorem getD_eq_get {α : Type} {l : List α} {d : α} {i : Nat}
    (h : i < l.length) : l.getD i d = l[i] := by
  simp [List.getD_eq_getElem?_getD, List.getElem?_eq_getElem h]

theorem ramToEEPROM_zero (mem : Mem) (a : Nat) (src : List Nat) :
    ramToEEPROM mem a src 0 = mem := rfl

theorem ramToEEPROM_succ (mem : Mem) (a : Nat) (src : List Nat) (n : Nat) :
    ramToEEPROM mem a src (n + 1)
      = updateByte (ramToEEPROM mem a src n) (w16 (a + n)) (src.getD n 0) := by
  unfold ramToEEPROM
  rw [List.range_succ, List.foldl_append, List.foldl_cons, List.foldl_nil]

theorem length_ramToEEPROM (mem : Mem) (a : Nat) (src : List Nat) (n : Nat) :
    (ramToEEPROM mem a src n).length = mem.length := by
  induction n with
  | zero => rfl
  | succ n ih => rw [ramToEEPROM_succ, length_updateByte, ih]

theorem readByte_ramToEEPROM_out {mem : Mem} {a n x : Nat} (src : List Nat)
    (hx : ∀ i < n, w16 (a + i) ≠ x) :
    readByte (ramToEEPROM mem a src n) x = readByte mem x := by
  induction n with
  | zero => rfl
  | succ n ih =>
      rw [ramToEEPROM_succ, readByte_updateByte_ne _ (hx n (Nat.lt_succ_self n)),
        ih (fun i hi => hx i (Nat.lt_succ_of_lt hi))]

theorem readByte_ramToEEPROM_in {mem : Mem} {a n : Nat} (src : List Nat)
    (hw : a + n ≤ 65536) (hlen : a + n ≤ mem.length) {i : Nat} (hi : i < n) :
    readByte (ramToEEPROM mem a src n) (a + i) = src.getD i 0 := by
  induction n with
  | zero => omega
  | succ n ih =>
      rw [ramToEEPROM_succ, w16_eq (by omega)]
      rcases Nat.lt_or_ge i n with h | h
      · rw [readByte_updateByte_ne _ (by omega)]
        exact ih (by omega) (by omega) h
      · have hin : i = n := by omega
        subst hin
        exact readByte_updateByte_self _ (by rw [length_ramToEEPROM]; omega)

theorem ramToEEPROM_noop {mem : Mem} {a n : Nat} {src : List Nat}
    (h : ∀ i < n, readByte mem (w16 (a + i)) = src.getD i 0) :
    ramToEEPROM mem a src n = mem := by
  induction n with
  | zero => rfl
  | succ n ih =>
      rw [ramToEEPROM_succ, ih (fun i hi => h i (Nat.lt_succ_of_lt hi)),
        updateByte_self (h n (Nat.lt_succ_self n))]

theorem mem_ramToEEPROM {mem : Mem} {src : List Nat} (a n : Nat)
    (hm : ∀ b ∈ mem, b < 256) (hs : ∀ b ∈ src, b < 256) :
    ∀ b ∈ ramToEEPROM mem a src n, b < 256 := by
  induction n with
  | zero => exact hm
  | succ n ih =>
      rw [ramToEEPROM_succ]
      exact mem_updateByte ih (readByte_lt hs n) _

theorem copyBytes_succ (mem : Mem) (newA oldA n : Nat) :
    copyBytes mem newA oldA (n + 1)
      = updateByte (copyBytes mem newA oldA n) (w16 (newA + n))
          (readByte (copyBytes mem newA oldA n) (w16 (oldA + n))) := by
  unfold copyBytes
  rw [List.range_succ, List.foldl_append, List.foldl_cons, List.foldl_nil]

theorem length_copyBytes (mem : Mem) (newA oldA n : Nat) :
    (copyBytes mem newA oldA n).length = mem.length := by
  induction n with
  | zero => rfl
  | succ n ih => rw [copyBytes_succ, length_updateByte, ih]

theorem readByte_copyBytes_out {mem : Mem} {newA oldA n x : Nat}
    (hx : ∀ j < n, w16 (newA + j) ≠ x) :
    readByte (copyBytes mem newA oldA n) x = readByte mem x := by
  induction n with
  | zero => rfl
  | succ n ih =>
      rw [copyBytes_succ, readByte_updateByte_ne _ (hx n (Nat.lt_succ_self n)),
        ih (fun j hj => hx j (Nat.lt_succ_of_lt hj))]

theorem readByte_copyBytes_in {mem : Mem} {newA oldA n : Nat}
    (hno : newA ≤ oldA) (hw : oldA + n ≤ 65536) (hlen : newA + n ≤ mem.length)
    {i : Nat} (hi : i < n) :
    readByte (copyBytes mem newA oldA n) (newA + i) = readByte mem (oldA + i) := by
  induction n with
  | zero => omega
  | succ n ih =>
      rw [copyBytes_succ, w16_eq (show newA + n < 65536 by omega),
        w16_eq (show oldA + n < 65536 by omega)]
      rcases Nat.lt_or_ge i n with h | h
      · rw [readByte_updateByte_ne _ (by omega)]
        exact ih (by omega) (by omega) h
      · have hin : i = n := by omega
        subst hin
        rw [readByte_updateByte_self _ (by rw [length_copyBytes]; omega)]
        exact readByte_copyBytes_out (fun j hj => by rw [w16_eq (by omega)]; omega)

theorem mem_copyBytes {mem : Mem} (newA oldA n : Nat)
    (hm : ∀ b ∈ mem, b < 256) :
    ∀ b ∈ copyBytes mem newA oldA n, b < 256 := by
  induction n with
  | zero => exact hm
  | succ n ih =>
      rw [copyBytes_succ]
      exact mem_updateByte ih (readByte_lt ih _) _

theorem loadBytes_succ (mem : Mem) (a n : Nat) (dest : List Nat) :
    loadBytes mem a (n + 1) dest
      = (loadBytes mem a n dest).set n (readByte mem (w16 (a + n))) := by
  unfold loadBytes
  rw [List.range_succ, List.foldl_append, List.foldl_cons, List.foldl_nil]

theorem length_loadBytes (mem : Mem) (a n : Nat) (dest : List Nat) :
    (loadBytes mem a n dest).length = dest.length := by
  induction n with
  | zero => rfl
  | succ n ih => rw [loadBytes_succ, List.length_set, ih]

theorem getD_loadBytes_lt {mem : Mem} {a n : Nat} {dest : List Nat}
    (hlen : n ≤ dest.length) {i : Nat} (hi : i < n) :
    (loadBytes mem a n dest).getD i 0 = readByte mem (w16 (a + i)) := by
  induction n with
  | zero => omega
  | succ n ih =>
      rw [loadBytes_succ]
      rcases Nat.lt_or_ge i n with h | h
      · rw [getD_set_ne _ (by omega)]
        exact ih (by omega) h
      · have hin : i = n := by omega
        subst hin
        exact getD_set_self _ (by rw [length_loadBytes]; omega)

theorem loadBytes_eq {mem : Mem} {a n : Nat} {dest src : List Nat}
    (hd : dest.length = n) (hs : src.length = n)
    (h : ∀ i < n, readByte mem (w16 (a + i)) = src.getD i 0) :
    loadBytes mem a n dest = src := by
  apply List.ext_getElem (by rw [length_loadBytes]; omega)
  intro i h1 h2
  have hi : i < n := by rw [length_loadBytes] at h1; omega
  rw [← getD_eq_get h1, ← getD_eq_get h2, getD_loadBytes_lt (by omega) hi]
  exact h i hi

theorem loadOp_none (E : Nat) (mem : Mem) (id : Nat) (dest : List Nat)
    (h : findId (loadObjectData E mem) id = none) :
    loadOp E mem id dest = (false, dest, mem) := by
  simp only [loadOp, h]

end EZPROM

namespace EZPROM

/-! ## Characterization of directory persistence -/

theorem length_writeEntry (mem : Mem) (a : Nat) (od : ObjectData) :
    (writeEntry mem a od).length = mem.length := by
  unfold writeEntry
  rw [length_updateByte, length_updateByte, length_updateByte]

theorem readByte_writeEntry_out {mem : Mem} {a x : Nat} (od : ObjectData)
    (h0 : w16 a ≠ x) (h1 : w16 (a + 1) ≠ x) (h2 : w16 (a + 2) ≠ x) :
    readByte (writeEntry mem a od) x = readByte mem x := by
  unfold writeEntry
  rw [readByte_updateByte_ne _ h2, readByte_updateByte_ne _ h1,
    readByte_updateByte_ne _ h0]

theorem loadEntry_congr {mem1 mem2 : Mem} {a : Nat}
    (h0 : readByte mem1 a = readByte mem2 a)
    (h1 : readByte mem1 (w16 (a + 1)) = readByte mem2 (w16 (a + 1)))
    (h2 : readByte mem1 (w16 (a + 2)) = readByte mem2 (w16 (a + 2))) :
    loadEntry mem1 a = loadEntry mem2 a := by
  unfold loadEntry
  rw [h0, h1, h2]

theorem loadEntry_writeEntry_self {mem : Mem} {a : Nat} (od : ObjectData)
    (hw : a + 3 ≤ 65536) (hlen : a + 3 ≤ mem.length) :
    loadEntry (writeEntry mem a od) a = ⟨od.id, od.size % 65536⟩ := by
  have e0 : w16 a = a := w16_eq (by omega)
  have e1 : w16 (a + 1) = a + 1 := w16_eq (by omega)
  have e2 : w16 (a + 2) = a + 2 := w16_eq (by omega)
  unfold loadEntry writeEntry
  rw [e0, e1, e2]
  rw [readByte_updateByte_ne _ (by omega), readByte_updateByte_ne _ (by omega),
    readByte_updateByte_self _ (by omega)]
  rw [readByte_updateByte_ne _ (by omega),
    readByte_updateByte_self _ (by rw [length_updateByte]; omega)]
  rw [readByte_updateByte_self _ (by
    rw [length_updateByte, length_updateByte]; omega)]
  have : od.size % 256 + 256 * (od.size / 256 % 256) = od.size % 65536 := by omega
  rw [this]

theorem mem_writeEntry {mem : Mem} {od : ObjectData} (a : Nat)
    (hm : ∀ b ∈ mem, b < 256) (hid : od.id < 256) :
    ∀ b ∈ writeEntry mem a od, b < 256 := by
  unfold writeEntry
  exact mem_updateByte (mem_updateByte (mem_updateByte hm hid _)
    (Nat.mod_lt _ (by omega)) _) (Nat.mod_lt _ (by omega)) _

theorem writeEntries_zero (mem : Mem) (start : Nat) (l : List ObjectData) :
    writeEntries mem start l 0 = mem := rfl

theorem writeEntries_succ (mem : Mem) (start : Nat) (l : List ObjectData)
    (n : Nat) :
    writeEntries mem start l (n + 1)
      = writeEntry (writeEntries mem start l n) (w16 (start + 3 * n))
          (l.getD n ⟨0, 0⟩) := by
  unfold writeEntries
  rw [List.range_succ, List.foldl_append, List.foldl_cons, List.foldl_nil]

theorem length_writeEntries (mem : Mem) (start : Nat) (l : List ObjectData)
    (n : Nat) : (writeEntries mem start l n).length = mem.length := by
  induction n with
  | zero => rfl
  | succ n ih => rw [writeEntries_succ, length_writeEntry, ih]

theorem readByte_writeEntries_out {mem : Mem} {start n x : Nat}
    (l : List ObjectData) (hw : start + 3 * n ≤ 65536)
    (hx : x < start ∨ start + 3 * n ≤ x) :
    readByte (writeEntries mem start l n) x = readByte mem x := by
  induction n with
  | zero => rfl
  | succ n ih =>
      rw [writeEntries_succ, w16_eq (show start + 3 * n < 65536 by omega)]
      rw [readByte_writeEntry_out _ (by rw [w16_eq (by omega)]; omega)
        (by rw [w16_eq (by omega)]; omega) (by rw [w16_eq (by omega)]; omega)]
      exact ih (by omega) (by omega)

theorem loadEntry_writeEntries {mem : Mem} {start n : Nat}
    (l : List ObjectData) (hw : start + 3 * n ≤ 65536)
    (hlen : start + 3 * n ≤ mem.length) {i : Nat} (hi : i < n) :
    loadEntry (writeEntries mem start l n) (start + 3 * i)
      = ⟨(l.getD i ⟨0, 0⟩).id, (l.getD i ⟨0, 0⟩).size % 65536⟩ := by
  induction n with
  | zero => omega
  | succ n ih =>
      rw [writeEntries_succ, w16_eq (show start + 3 * n < 65536 by omega)]
      rcases Nat.lt_or_ge i n with h | h
      · rw [loadEntry_congr
          (readByte_writeEntry_out _ (by rw [w16_eq (by omega)]; omega)
            (by rw [w16_eq (by omega)]; omega) (by rw [w16_eq (by omega)]; omega))
          (readByte_writeEntry_out _
            (by rw [w16_eq (by omega), w16_eq (by omega)]; omega)
            (by rw [w16_eq (by omega), w16_eq (by omega)]; omega)
            (by rw [w16_eq (by omega), w16_eq (by omega)]; omega))
          (readByte_writeEntry_out _
            (by rw [w16_eq (by omega), w16_eq (by omega)]; omega)
            (by rw [w16_eq (by omega), w16_eq (by omega)]; omega)
            (by rw [w16_eq (by omega), w16_eq (by omega)]; omega))]
        exact ih (by omega) (by omega) h
      · have hin : i = n := by omega
        subst hin
        exact loadEntry_writeEntry_self _ (by omega)
          (by rw [length_writeEntries]; omega)

theorem mem_writeEntries {mem : Mem} {l : List ObjectData} (start n : Nat)
    (hm : ∀ b ∈ mem, b < 256) (hid : ∀ od ∈ l, od.id < 256) :
    ∀ b ∈ writeEntries mem start l n, b < 256 := by
  induction n with
  | zero => exact hm
  | succ n ih =>
      rw [writeEntries_succ]
      refine mem_writeEntry _ ih ?_
      by_cases h : n < l.length
      · rw [getD_eq_get h]
        exact hid _ (l.getElem_mem h)
      · rw [List.getD_eq_getElem?_getD, List.getElem?_eq_none (by omega)]
        decide

end EZPROM

namespace EZPROM

theorem length_loadObjectData (E : Nat) (mem : Mem) :
    (loadObjectData E mem).length = getObjectAmount E mem := by
  simp [loadObjectData]

theorem length_saveObjectData (E : Nat) (mem : Mem) (l : List ObjectData)
    (n : Nat) : (saveObjectData E mem l n).length = mem.length := by
  simp only [saveObjectData]
  rw [length_updateByte, length_writeEntries]

theorem readByte_saveObjectData_out {E n x : Nat} {mem : Mem}
    (l : List ObjectData) (h3 : 1 + 3 * n ≤ E) (hE : E ≤ 65535)
    (hx : x < E - 1 - 3 * n ∨ E ≤ x) :
    readByte (saveObjectData E mem l n) x = readByte mem x := by
  have hst : sub16 E (1 + 3 * n) = E - 1 - 3 * n := by
    rw [sub16_eq (by omega) (by omega)]; omega
  have h1 : sub16 E 1 = E - 1 := by rw [sub16_eq (by omega) (by omega)]
  simp only [saveObjectData, hst, h1]
  rw [readByte_updateByte_ne _ (by omega),
    readByte_writeEntries_out _ (by omega) (by omega)]

theorem getObjectAmount_saveObjectData {E n : Nat} {mem : Mem}
    (l : List ObjectData) (h3 : 1 + 3 * n ≤ E) (hE : E ≤ 65535)
    (hlen : mem.length = E) :
    getObjectAmount E (saveObjectData E mem l n) = n := by
  have h1 : sub16 E 1 = E - 1 := by rw [sub16_eq (by omega) (by omega)]
  simp only [getObjectAmount, saveObjectData, h1]
  exact readByte_updateByte_self _ (by rw [length_writeEntries]; omega)

theorem loadObjectData_saveObjectData {E n : Nat} {mem : Mem}
    {l : List ObjectData} (h3 : 1 + 3 * n ≤ E) (hE : E ≤ 65535)
    (hlen : mem.length = E) (hn : n ≤ l.length)
    (hsz : ∀ od ∈ l, od.size < 65536) :
    loadObjectData E (saveObjectData E mem l n) = l.take n := by
  have hst : sub16 E (1 + 3 * n) = E - 1 - 3 * n := by
    rw [sub16_eq (by omega) (by omega)]; omega
  have h1 : sub16 E 1 = E - 1 := by rw [sub16_eq (by omega) (by omega)]
  have hcount := getObjectAmount_saveObjectData l h3 hE hlen
  simp only [loadObjectData, hcount, hst]
  apply List.ext_getElem (by simp; omega)
  intro i hi1 hi2
  have hi : i < n := by simpa using hi1
  rw [List.getElem_map, List.getElem_range, List.getElem_take]
  have hw16 : w16 (E - 1 - 3 * n + 3 * i) = E - 1 - 3 * n + 3 * i :=
    w16_eq (by omega)
  rw [hw16]
  simp only [saveObjectData, hst, h1]
  rw [loadEntry_congr
      (readByte_updateByte_ne _ (by omega))
      (readByte_updateByte_ne _ (by rw [w16_eq (by omega)]; omega))
      (readByte_updateByte_ne _ (by rw [w16_eq (by omega)]; omega))]
  rw [loadEntry_writeEntries _ (by omega) (by omega) hi]
  have hli : i < l.length := by omega
  rw [getD_eq_get hli]
  have hsz' : l[i].size % 65536 = l[i].size :=
    Nat.mod_eq_of_lt (hsz _ (l.getElem_mem hli))
  rw [hsz']

theorem mem_saveObjectData {E n : Nat} {mem : Mem} {l : List ObjectData}
    (hm : ∀ b ∈ mem, b < 256) (hid : ∀ od ∈ l, od.id < 256) (hn : n < 256) :
    ∀ b ∈ saveObjectData E mem l n, b < 256 := by
  simp only [saveObjectData]
  exact mem_updateByte (mem_writeEntries _ _ hm hid) hn _

/-- The decoded directory depends only on the count byte and the directory
block: two memories agreeing there decode identically. -/
theorem loadObjectData_congr {E : Nat} {mem1 mem2 : Mem}
    (h3 : 1 + 3 * getObjectAmount E mem2 ≤ E) (hE : E ≤ 65535)
    (h : ∀ x, E - 1 - 3 * getObjectAmount E mem2 ≤ x →
      readByte mem1 x = readByte mem2 x) :
    loadObjectData E mem1 = loadObjectData E mem2 := by
  have h1 : sub16 E 1 = E - 1 := by rw [sub16_eq (by omega) (by omega)]
  have hcount : getObjectAmount E mem1 = getObjectAmount E mem2 := by
    unfold getObjectAmount at *
    rw [h1] at *
    exact h _ (by omega)
  set c := getObjectAmount E mem2 with hc
  have hst : sub16 E (1 + 3 * c) = E - 1 - 3 * c := by
    rw [sub16_eq (by omega) (by omega)]; omega
  simp only [loadObjectData, hcount, hst, ← hc]
  apply List.map_congr_left
  intro i hi
  have hi' : i < c := List.mem_range.mp hi
  have hw16 : w16 (E - 1 - 3 * c + 3 * i) = E - 1 - 3 * c + 3 * i :=
    w16_eq (by omega)
  rw [hw16]
  exact loadEntry_congr (h _ (by omega))
    (by rw [w16_eq (by omega)]; exact h _ (by omega))
    (by rw [w16_eq (by omega)]; exact h _ (by omega))

end EZPROM

namespace EZPROM

/-! ## The id-search loop -/

theorem findIdAux_shift (l : List ObjectData) (id i : Nat) :
    findIdAux l id i = (findIdAux l id 0).map (fun j => j + i) := by
  induction l generalizing i with
  | nil => rfl
  | cons o rest ih =>
      unfold findIdAux
      by_cases h : o.id = id
      · simp [h]
      · simp only [if_neg h]
        rw [ih (i + 1), ih 1, Option.map_map]
        apply congrFun
        apply congrArg
        funext j
        simp only [Function.comp_apply]
        omega

theorem findId_some {l : List ObjectData} {id k : Nat}
    (h : findId l id = some k) :
    k < l.length ∧ (l.getD k ⟨0, 0⟩).id = id := by
  induction l generalizing k with
  | nil => simp [findId, findIdAux] at h
  | cons o rest ih =>
      unfold findId findIdAux at h
      by_cases ho : o.id = id
      · rw [if_pos ho] at h
        cases h
        exact ⟨Nat.succ_pos _, ho⟩
      · rw [if_neg ho, findIdAux_shift] at h
        rcases Option.map_eq_some'.mp h with ⟨j, hj, hjk⟩
        rcases ih hj with ⟨h1, h2⟩
        subst hjk
        exact ⟨by simpa using Nat.succ_lt_succ h1, by simpa using h2⟩

theorem findId_none {l : List ObjectData} {id : Nat} :
    findId l id = none ↔ ∀ od ∈ l, od.id ≠ id := by
  induction l with
  | nil => simp [findId, findIdAux]
  | cons o rest ih =>
      unfold findId findIdAux
      by_cases ho : o.id = id
      · simp [ho]
      · rw [if_neg ho, findIdAux_shift]
        simp only [Option.map_eq_none']
        unfold findId at ih
        rw [ih]
        simp [ho]

theorem findId_append_last {l : List ObjectData} {id : Nat}
    (h : ∀ od ∈ l, od.id ≠ id) (od' : ObjectData) (hod : od'.id = id) :
    findId (l ++ [od']) id = some l.length := by
  induction l with
  | nil => simp [findId, findIdAux, hod]
  | cons o rest ih =>
      have ho : o.id ≠ id := h o (List.mem_cons_self o rest)
      rw [List.cons_append]
      show findIdAux (o :: (rest ++ [od'])) id 0 = some (o :: rest).length
      unfold findIdAux
      have ih' := ih (fun x hx => h x (List.mem_cons_of_mem o hx))
      unfold findId at ih'
      rw [if_neg ho, findIdAux_shift, ih']
      simp

/-! ## Prefix sums over the directory -/

/-- The exact (un-wrapped) prefix sum of record sizes before index `i`. -/
def addrSum (l : List ObjectData) (i : Nat) : Nat :=
  ((l.take i).map (fun o => o.size)).sum

theorem addrSum_le_sizeSum (l : List ObjectData) (i : Nat) :
    addrSum l i ≤ sizeSum l := by
  unfold addrSum sizeSum
  conv_rhs => rw [← List.take_append_drop i l]
  rw [List.map_append, List.sum_append]
  exact Nat.le_add_right _ _

theorem getAddressAt_eq {l : List ObjectData} (i : Nat)
    (h : sizeSum l < 65536) : getAddressAt l i = addrSum l i :=
  w16_eq (Nat.lt_of_le_of_lt (addrSum_le_sizeSum l i) h)

theorem addrSum_zero (l : List ObjectData) : addrSum l 0 = 0 := rfl

theorem addrSum_succ {l : List ObjectData} {i : Nat} (h : i < l.length) :
    addrSum l (i + 1) = addrSum l i + (l.getD i ⟨0, 0⟩).size := by
  unfold addrSum
  rw [List.take_succ, List.getElem?_eq_getElem h, getD_eq_get h,
    List.map_append, List.sum_append]
  simp

theorem addrSum_mono (l : List ObjectData) {i j : Nat} (h : i ≤ j) :
    addrSum l i ≤ addrSum l j := by
  unfold addrSum
  conv_rhs => rw [show l.take j = (l.take j).take i ++ (l.take j).drop i from
    (List.take_append_drop i (l.take j)).symm]
  rw [List.take_take, Nat.min_eq_left h, List.map_append, List.sum_append]
  exact Nat.le_add_right _ _

theorem addrSum_of_length_le {l : List ObjectData} {i : Nat}
    (h : l.length ≤ i) : addrSum l i = sizeSum l := by
  unfold addrSum sizeSum
  rw [List.take_of_length_le h]

theorem addrSum_eraseIdx_of_le {l : List ObjectData} {idx j : Nat}
    (hidx : idx ≤ l.length) (h : j ≤ idx) :
    addrSum (l.eraseIdx idx) j = addrSum l j := by
  unfold addrSum
  rw [List.eraseIdx_eq_take_drop_succ, List.take_append_eq_append_take,
    List.take_take, Nat.min_eq_left h, List.length_take,
    Nat.min_eq_left hidx, Nat.sub_eq_zero_of_le h]
  simp

theorem addrSum_eraseIdx_of_ge {l : List ObjectData} {idx j : Nat}
    (hidx : idx < l.length) (h : idx ≤ j) :
    addrSum (l.eraseIdx idx) j + (l.getD idx ⟨0, 0⟩).size = addrSum l (j + 1) := by
  unfold addrSum
  have hj1 : j + 1 = idx + (j + 1 - idx) := by omega
  have hj2 : j + 1 - idx = (j - idx) + 1 := by omega
  rw [List.eraseIdx_eq_take_drop_succ, List.take_append_eq_append_take,
    List.take_take, Nat.min_eq_right h, List.length_take,
    Nat.min_eq_left (Nat.le_of_lt hidx)]
  conv_rhs => rw [hj1, List.take_add]
  rw [List.drop_eq_getElem_cons hidx, hj2, List.take_succ_cons]
  simp only [List.map_append, List.sum_append, List.map_cons, List.sum_cons,
    getD_eq_get hidx]
  omega

theorem sizeSum_eraseIdx {l : List ObjectData} {idx : Nat}
    (hidx : idx < l.length) :
    sizeSum (l.eraseIdx idx) + (l.getD idx ⟨0, 0⟩).size = sizeSum l := by
  have hlen : (l.eraseIdx idx).length = l.length - 1 :=
    List.length_eraseIdx_of_lt hidx
  have h1 := addrSum_eraseIdx_of_ge hidx (show idx ≤ l.length - 1 by omega)
  rw [addrSum_of_length_le (by omega), addrSum_of_length_le (by omega)] at h1
  exact h1

end EZPROM

namespace EZPROM

theorem getD_eraseIdx_of_lt {l : List ObjectData} {idx j : Nat} (h : j < idx) :
    (l.eraseIdx idx).getD j ⟨0, 0⟩ = l.getD j ⟨0, 0⟩ := by
  by_cases hidx : idx < l.length
  · have hj : j < (l.eraseIdx idx).length := by
      rw [List.length_eraseIdx_of_lt hidx]; omega
    have hj' : j < l.length := by omega
    rw [getD_eq_get hj, getD_eq_get hj', List.getElem_eraseIdx_of_lt _ _ _ hj h]
  · rw [List.eraseIdx_of_length_le (by omega)]

theorem getD_eraseIdx_of_ge {l : List ObjectData} {idx j : Nat}
    (hidx : idx < l.length) (h : idx ≤ j) :
    (l.eraseIdx idx).getD j ⟨0, 0⟩ = l.getD (j + 1) ⟨0, 0⟩ := by
  by_cases hj : j < (l.eraseIdx idx).length
  · have hj' : j + 1 < l.length := by
      rw [List.length_eraseIdx_of_lt hidx] at hj; omega
    rw [getD_eq_get hj, getD_eq_get hj', List.getElem_eraseIdx_of_ge _ _ _ hj h]
  · have h1 : (l.eraseIdx idx).length ≤ j := by omega
    have h2 : l.length ≤ j + 1 := by
      rw [List.length_eraseIdx_of_lt hidx] at h1; omega
    rw [List.getD_eq_getElem?_getD, List.getElem?_eq_none h1,
      List.getD_eq_getElem?_getD, List.getElem?_eq_none h2]

/-- The id column of a directory. -/
def ids (l : List ObjectData) : List Nat := l.map (fun o => o.id)

theorem length_ids (l : List ObjectData) : (ids l).length = l.length := by
  simp [ids]

theorem nodup_ids_eraseIdx {l : List ObjectData} (idx : Nat)
    (h : (ids l).Nodup) : (ids (l.eraseIdx idx)).Nodup :=
  List.Nodup.sublist (List.Sublist.map _ (List.eraseIdx_sublist l idx)) h

theorem eraseIdx_id_not_mem {l : List ObjectData} {idx : Nat}
    (hn : (ids l).Nodup) (hidx : idx < l.length) :
    ∀ od ∈ l.eraseIdx idx, od.id ≠ (l.getD idx ⟨0, 0⟩).id := by
  intro od hmem heq
  rcases List.mem_iff_getElem.mp hmem with ⟨j, hj, hod⟩
  rw [getD_eq_get hidx] at heq
  have hidxi : idx < (ids l).length := by rw [length_ids]; omega
  by_cases hlt : j < idx
  · have hj' : j < l.length := by omega
    have hji : j < (ids l).length := by rw [length_ids]; omega
    have hval : l[j] = od := by
      rw [← hod]; exact (List.getElem_eraseIdx_of_lt l idx j hj hlt).symm
    have hids : (ids l)[j] = (ids l)[idx] := by
      simp only [ids, List.getElem_map]
      rw [hval, heq]
    have := (List.Nodup.getElem_inj_iff hn).mp hids
    omega
  · have hge : idx ≤ j := by omega
    have hj1 : j + 1 < l.length := by
      rw [List.length_eraseIdx_of_lt hidx] at hj; omega
    have hj1i : j + 1 < (ids l).length := by rw [length_ids]; omega
    have hval : l[j + 1] = od := by
      rw [← hod]; exact (List.getElem_eraseIdx_of_ge l idx j hj hge).symm
    have hids : (ids l)[j + 1] = (ids l)[idx] := by
      simp only [ids, List.getElem_map]
      rw [hval, heq]
    have := (List.Nodup.getElem_inj_iff hn).mp hids
    omega

end EZPROM

namespace EZPROM

/-! ## The record-compaction loop of remove -/

theorem slideLoop_zero (mem : Mem) (objects u : List ObjectData) (index : Nat) :
    slideLoop mem objects u index 0 = mem := rfl

theorem slideLoop_succ (mem : Mem) (objects u : List ObjectData)
    (index j : Nat) :
    slideLoop mem objects u index (j + 1)
      = copyBytes (slideLoop mem objects u index j)
          (getAddressAt u (index + j)) (getAddressAt objects (index + j + 1))
          (u.getD (index + j) ⟨0, 0⟩).size := by
  unfold slideLoop
  rw [List.range_succ, List.foldl_append, List.foldl_cons, List.foldl_nil]

theorem length_slideLoop (mem : Mem) (objects u : List ObjectData)
    (index j : Nat) :
    (slideLoop mem objects u index j).length = mem.length := by
  induction j with
  | zero => rfl
  | succ j ih => rw [slideLoop_succ, length_copyBytes, ih]

theorem mem_slideLoop {mem : Mem} (objects u : List ObjectData)
    (index j : Nat) (hm : ∀ b ∈ mem, b < 256) :
    ∀ b ∈ slideLoop mem objects u index j, b < 256 := by
  induction j with
  | zero => exact hm
  | succ j ih =>
      rw [slideLoop_succ]
      exact mem_copyBytes _ _ _ ih

theorem sizeSum_eraseIdx_le (l : List ObjectData) (idx : Nat) :
    sizeSum (l.eraseIdx idx) ≤ sizeSum l := by
  by_cases h : idx < l.length
  · have := sizeSum_eraseIdx (l := l) h
    omega
  · rw [List.eraseIdx_of_length_le (by omega)]

/-- Behaviour of the first `j` iterations of the compaction loop: bytes below
the removed record and at or above the compacted region's current end are
untouched, and the compacted region holds the original bytes shifted left by
the removed record's size. -/
theorem slideLoop_spec {mem : Mem} {objects : List ObjectData} {index : Nat}
    (hidx : index < objects.length)
    (hsum : sizeSum objects < 65536) (hlen : sizeSum objects ≤ mem.length)
    (j : Nat) :
    index + j ≤ (objects.eraseIdx index).length →
    (∀ x, x < addrSum objects index ∨
        addrSum (objects.eraseIdx index) (index + j) ≤ x →
      readByte (slideLoop mem objects (objects.eraseIdx index) index j) x
        = readByte mem x) ∧
    (∀ k, addrSum objects index + k
        < addrSum (objects.eraseIdx index) (index + j) →
      readByte (slideLoop mem objects (objects.eraseIdx index) index j)
          (addrSum objects index + k)
        = readByte mem
            (addrSum objects index + (objects.getD index ⟨0, 0⟩).size + k)) := by
  set u := objects.eraseIdx index with hu
  set N := addrSum objects index with hN
  have hN_u : addrSum u index = N :=
    addrSum_eraseIdx_of_le (Nat.le_of_lt hidx) (Nat.le_refl index)
  induction j with
  | zero =>
      intro hj
      refine ⟨fun x hx => rfl, fun k hk => ?_⟩
      rw [Nat.add_zero, hN_u] at hk
      omega
  | succ j ih =>
      intro hj
      have hulen : u.length = objects.length - 1 :=
        List.length_eraseIdx_of_lt hidx
      have hidxlen : index + j < u.length := by omega
      obtain ⟨ih2, ih3⟩ := ih (by omega)
      set Aj := addrSum u (index + j) with hAj
      set szj := (u.getD (index + j) ⟨0, 0⟩).size with hszj
      set szrm := (objects.getD index ⟨0, 0⟩).size with hszrm
      have hA1 : addrSum u (index + (j + 1)) = Aj + szj := by
        rw [show index + (j + 1) = index + j + 1 from rfl]
        exact addrSum_succ hidxlen
      have hrel : Aj + szrm = addrSum objects (index + j + 1) :=
        addrSum_eraseIdx_of_ge hidx (by omega)
      have hNleAj : N ≤ Aj := by
        rw [← hN_u]
        exact addrSum_mono _ (by omega)
      have hle1 : Aj + szj ≤ sizeSum objects := by
        calc Aj + szj = addrSum u (index + j + 1) := (addrSum_succ hidxlen).symm
          _ ≤ sizeSum u := addrSum_le_sizeSum _ _
          _ ≤ sizeSum objects := sizeSum_eraseIdx_le _ _
      have hszj2 : szj = (objects.getD (index + j + 1) ⟨0, 0⟩).size := by
        rw [hszj, getD_eraseIdx_of_ge hidx (by omega)]
      have hbound : addrSum objects (index + j + 1) + szj ≤ sizeSum objects := by
        have hlt2 : index + j + 1 < objects.length := by omega
        rw [hszj2, ← addrSum_succ hlt2]
        exact addrSum_le_sizeSum _ _
      have hAddr_u : getAddressAt u (index + j) = Aj :=
        getAddressAt_eq _ (Nat.lt_of_le_of_lt (sizeSum_eraseIdx_le _ _) hsum)
      have hAddr_o : getAddressAt objects (index + j + 1)
          = addrSum objects (index + j + 1) := getAddressAt_eq _ hsum
      rw [slideLoop_succ, hAddr_u, hAddr_o, hA1, ← hszj, ← hrel]
      have hslen : Aj + szj ≤ (slideLoop mem objects u index j).length := by
        rw [length_slideLoop]
        omega
      refine ⟨fun x hx => ?_, fun k hk => ?_⟩
      · rcases hx with hx | hx
        · rw [readByte_copyBytes_out
            (fun jj hjj => by rw [w16_eq (by omega)]; omega)]
          exact ih2 x (Or.inl hx)
        · rw [readByte_copyBytes_out
            (fun jj hjj => by rw [w16_eq (by omega)]; omega)]
          exact ih2 x (Or.inr (by omega))
      · by_cases hkA : N + k < Aj
        · rw [readByte_copyBytes_out
            (fun jj hjj => by rw [w16_eq (by omega)]; omega)]
          exact ih3 k hkA
        · have hi : N + k - Aj < szj := by omega
          have hNk : N + k = Aj + (N + k - Aj) := by omega
          rw [hNk, readByte_copyBytes_in (by omega) (by omega) hslen hi,
            ih2 (Aj + szrm + (N + k - Aj)) (Or.inr (by omega))]
          congr 1
          omega

end EZPROM

namespace EZPROM

/-! ## Characterization of remove -/

theorem loadObjectData_id_lt {E : Nat} {mem : Mem}
    (hbytes : ∀ b ∈ mem, b < 256) :
    ∀ od ∈ loadObjectData E mem, od.id < 256 := by
  intro od hod
  simp only [loadObjectData, List.mem_map] at hod
  obtain ⟨i, _, rfl⟩ := hod
  exact readByte_lt hbytes _

theorem loadObjectData_size_lt {E : Nat} {mem : Mem}
    (hbytes : ∀ b ∈ mem, b < 256) :
    ∀ od ∈ loadObjectData E mem, od.size < 65536 := by
  intro od hod
  simp only [loadObjectData, List.mem_map] at hod
  obtain ⟨i, _, rfl⟩ := hod
  simp only [loadEntry]
  have h1 := readByte_lt hbytes (w16 (w16 (sub16 E (1 + 3 * getObjectAmount E mem) + 3 * i) + 1))
  have h2 := readByte_lt hbytes (w16 (w16 (sub16 E (1 + 3 * getObjectAmount E mem) + 3 * i) + 2))
  omega

theorem getObjectAmount_lt {E : Nat} {mem : Mem}
    (hbytes : ∀ b ∈ mem, b < 256) : getObjectAmount E mem < 256 :=
  readByte_lt hbytes _

theorem removeOp_none {E : Nat} {mem : Mem} {id : Nat}
    (hfind : findId (loadObjectData E mem) id = none) :
    removeOp E mem id = mem := by
  simp only [removeOp]
  rw [hfind]

theorem removeOp_found_eq {E : Nat} {mem : Mem} {id index : Nat}
    (hfind : findId (loadObjectData E mem) id = some index) :
    removeOp E mem id
      = saveObjectData E
          (slideLoop mem (loadObjectData E mem)
            ((loadObjectData E mem).eraseIdx index) index
            (getObjectAmount E mem - 1 - index))
          ((loadObjectData E mem).eraseIdx index)
          (getObjectAmount E mem - 1) := by
  simp only [removeOp]
  rw [hfind]

/-- Full behaviour of `remove` on a present id, for a well-formed store:
the persisted directory drops the entry, records before it keep their bytes,
records after it are slid down by its size, and byte values stay bytes. -/
theorem removeOp_spec {E : Nat} {mem : Mem} {id index : Nat}
    (hE : E ≤ 65535) (hElen : mem.length = E)
    (hfit : sizeSum (loadObjectData E mem) + 1
      + 3 * (loadObjectData E mem).length ≤ E)
    (hbytes : ∀ b ∈ mem, b < 256)
    (hfind : findId (loadObjectData E mem) id = some index) :
    (removeOp E mem id).length = E ∧
    loadObjectData E (removeOp E mem id)
      = (loadObjectData E mem).eraseIdx index ∧
    (∀ b ∈ removeOp E mem id, b < 256) ∧
    (∀ x, x < addrSum (loadObjectData E mem) index →
      readByte (removeOp E mem id) x = readByte mem x) ∧
    (∀ k, addrSum (loadObjectData E mem) index + k
        < sizeSum ((loadObjectData E mem).eraseIdx index) →
      readByte (removeOp E mem id)
          (addrSum (loadObjectData E mem) index + k)
        = readByte mem (addrSum (loadObjectData E mem) index
            + ((loadObjectData E mem).getD index ⟨0, 0⟩).size + k)) := by
  set l := loadObjectData E mem with hl
  set u := l.eraseIdx index with huu
  set c := l.length with hcc
  have hidx : index < c := (findId_some hfind).1
  have hc : getObjectAmount E mem = c := (length_loadObjectData E mem).symm
  have hulen : u.length = c - 1 := List.length_eraseIdx_of_lt hidx
  have hsum : sizeSum l < 65536 := by omega
  have hlen' : sizeSum l ≤ mem.length := by omega
  have hj : index + (c - 1 - index) ≤ u.length := by omega
  obtain ⟨s2, s3⟩ := slideLoop_spec hidx hsum hlen' (c - 1 - index) hj
  have hAend : addrSum u (index + (c - 1 - index)) = sizeSum u := by
    apply addrSum_of_length_le
    omega
  have hm1len : (slideLoop mem l u index (c - 1 - index)).length = E := by
    rw [length_slideLoop, hElen]
  have hszu : ∀ od ∈ u, od.size < 65536 := by
    intro od hod
    exact loadObjectData_size_lt hbytes od
      ((List.eraseIdx_sublist l index).subset hod)
  have hc256 : c < 256 := by
    rw [← hc]
    exact getObjectAmount_lt hbytes
  have hN : addrSum l index ≤ sizeSum l := addrSum_le_sizeSum _ _
  have hsu : sizeSum u ≤ sizeSum l := sizeSum_eraseIdx_le _ _
  rw [removeOp_found_eq hfind, hc]
  refine ⟨?_, ?_, ?_, ?_, ?_⟩
  · rw [length_saveObjectData, hm1len]
  · rw [loadObjectData_saveObjectData (by omega) hE hm1len (by omega) hszu]
    exact List.take_of_length_le (by omega)
  · exact mem_saveObjectData (mem_slideLoop _ _ _ _ hbytes)
      (fun od hod => loadObjectData_id_lt hbytes od
        ((List.eraseIdx_sublist l index).subset hod)) (by omega)
  · intro x hx
    rw [readByte_saveObjectData_out _ (by omega) hE (by omega)]
    exact s2 x (Or.inl hx)
  · intro k hk
    rw [readByte_saveObjectData_out _ (by omega) hE (by omega)]
    apply s3
    rw [hAend]
    exact hk

end EZPROM

namespace EZPROM

/-! ## Characterization of save -/

theorem save_found_same_eq {E : Nat} {mem : Mem} {ow : Bool} {id index : Nat}
    {src : List Nat}
    (hfind : findId (loadObjectData E mem) id = some index)
    (hsize : ((loadObjectData E mem).getD index ⟨0, 0⟩).size = w16 src.length) :
    save E mem ow id src
      = (true, ramToEEPROM mem (getAddressAt (loadObjectData E mem) index) src
          ((loadObjectData E mem).getD index ⟨0, 0⟩).size) := by
  simp only [save, hfind, if_pos hsize]

theorem save_found_diff_noresize_eq {E : Nat} {mem : Mem} {id index : Nat}
    {src : List Nat}
    (hfind : findId (loadObjectData E mem) id = some index)
    (hsize : ((loadObjectData E mem).getD index ⟨0, 0⟩).size ≠ w16 src.length) :
    save E mem false id src = (false, mem) := by
  simp only [save, hfind, if_neg hsize]
  simp

theorem save_found_diff_resize_nospace_eq {E : Nat} {mem : Mem}
    {id index : Nat} {src : List Nat}
    (hfind : findId (loadObjectData E mem) id = some index)
    (hsize : ((loadObjectData E mem).getD index ⟨0, 0⟩).size ≠ w16 src.length)
    (hspace : ¬ w16 (sizeSum ((loadObjectData E mem).eraseIdx index)
      + (1 + 3 * getObjectAmount E mem) + w16 src.length) ≤ E) :
    save E mem true id src = (false, mem) := by
  simp only [save, hfind, if_neg hsize]
  simp [hspace]

theorem save_found_diff_resize_space_eq {E : Nat} {mem : Mem}
    {id index : Nat} {src : List Nat}
    (hfind : findId (loadObjectData E mem) id = some index)
    (hsize : ((loadObjectData E mem).getD index ⟨0, 0⟩).size ≠ w16 src.length)
    (hspace : w16 (sizeSum ((loadObjectData E mem).eraseIdx index)
      + (1 + 3 * getObjectAmount E mem) + w16 src.length) ≤ E) :
    save E mem true id src
      = saveInsert E (removeOp E mem id) id src (w16 src.length)
          ((loadObjectData E mem).eraseIdx index)
          (getObjectAmount E mem - 1) := by
  simp only [save, hfind, if_neg hsize]
  simp [hspace]

theorem save_fresh_space_eq {E : Nat} {mem : Mem} {ow : Bool} {id : Nat}
    {src : List Nat}
    (hfind : findId (loadObjectData E mem) id = none)
    (hspace : w16 (sizeSum (loadObjectData E mem)
      + (1 + 3 * getObjectAmount E mem) + w16 src.length + 3) ≤ E) :
    save E mem ow id src
      = saveInsert E mem id src (w16 src.length) (loadObjectData E mem)
          (getObjectAmount E mem) := by
  simp only [save, hfind]
  simp [hspace]

theorem save_fresh_nospace_eq {E : Nat} {mem : Mem} {ow : Bool} {id : Nat}
    {src : List Nat}
    (hfind : findId (loadObjectData E mem) id = none)
    (hspace : ¬ w16 (sizeSum (loadObjectData E mem)
      + (1 + 3 * getObjectAmount E mem) + w16 src.length + 3) ≤ E) :
    save E mem ow id src = (false, mem) := by
  simp only [save, hfind]
  simp [hspace]

/-- Behaviour of the shared insert tail of `save`, for a working directory
`u` that fits together with the new record: it reports success, persists
`u ++ [{id, size}]`, writes the record bytes right after the existing
records, and touches nothing else outside the record and directory blocks. -/
theorem saveInsert_spec {E : Nat} {mem : Mem} {id size : Nat}
    {src : List Nat} {u : List ObjectData}
    (hElen : mem.length = E) (hE : E ≤ 65535)
    (hfit : sizeSum u + size + 1 + 3 * (u.length + 1) ≤ E)
    (hn255 : u.length < 255)
    (hszu : ∀ od ∈ u, od.size < 65536) :
    (saveInsert E mem id src size u u.length).1 = true ∧
    (saveInsert E mem id src size u u.length).2.length = E ∧
    loadObjectData E (saveInsert E mem id src size u u.length).2
      = u ++ [⟨id, size⟩] ∧
    (∀ x, x < sizeSum u ∨
        (sizeSum u + size ≤ x ∧ x < E - 1 - 3 * (u.length + 1)) →
      readByte (saveInsert E mem id src size u u.length).2 x
        = readByte mem x) ∧
    (∀ i < size,
      readByte (saveInsert E mem id src size u u.length).2 (sizeSum u + i)
        = src.getD i 0) := by
  have hsu : sizeSum u < 65536 := by omega
  have hsz : size < 65536 := by omega
  have hA : getAddressAt (u ++ [⟨id, size⟩]) u.length = sizeSum u := by
    unfold getAddressAt
    rw [List.take_left]
    exact w16_eq hsu
  have hmod : (u.length + 1) % 256 = u.length + 1 := Nat.mod_eq_of_lt (by omega)
  have hm1len : (ramToEEPROM mem (sizeSum u) src size).length = E := by
    rw [length_ramToEEPROM, hElen]
  simp only [saveInsert, hA, hmod]
  refine ⟨trivial, ?_, ?_, ?_, ?_⟩
  · rw [length_saveObjectData, hm1len]
  · rw [loadObjectData_saveObjectData (by omega) hE hm1len
      (by simp) ?_]
    · exact List.take_of_length_le (by simp)
    · intro od hod
      rcases List.mem_append.mp hod with h | h
      · exact hszu od h
      · rcases List.mem_singleton.mp h with rfl
        exact hsz
  · intro x hx
    rw [readByte_saveObjectData_out _ (by omega) hE (by omega)]
    rcases hx with hx | hx
    · exact readByte_ramToEEPROM_out _
        (fun i hi => by rw [w16_eq (by omega)]; omega)
    · exact readByte_ramToEEPROM_out _
        (fun i hi => by rw [w16_eq (by omega)]; omega)
  · intro i hi
    rw [readByte_saveObjectData_out _ (by omega) hE (by omega)]
    exact readByte_ramToEEPROM_in _ (by omega) (by omega) hi

end EZPROM

namespace EZPROM

/-! ## Well-formedness invariant -/

/-- Well-formed store: the capacity is a nonzero uint16, every cell holds a
byte, the decoded directory has pairwise-distinct ids, and records plus
directory overhead fit (spec invariants 1 and 2). -/
def INV (E : Nat) (mem : Mem) : Prop :=
  mem.length = E ∧ 1 ≤ E ∧ E ≤ 65535 ∧ (∀ b ∈ mem, b < 256) ∧
  (ids (loadObjectData E mem)).Nodup ∧
  sizeSum (loadObjectData E mem) + 1 + 3 * (loadObjectData E mem).length ≤ E

theorem mem_saveInsert {E : Nat} {mem : Mem} {id size n : Nat}
    {src : List Nat} {u : List ObjectData}
    (hbytes : ∀ b ∈ mem, b < 256) (hsrc : ∀ b ∈ src, b < 256)
    (hid : id < 256) (hidu : ∀ od ∈ u, od.id < 256) :
    ∀ b ∈ (saveInsert E mem id src size u n).2, b < 256 := by
  simp only [saveInsert]
  refine mem_saveObjectData (mem_ramToEEPROM _ _ hbytes hsrc) ?_
    (Nat.mod_lt _ (by omega))
  intro od hod
  rcases List.mem_append.mp hod with h | h
  · exact hidu od h
  · rcases List.mem_singleton.mp h with rfl
    exact hid

theorem loadObjectData_resetOp {E : Nat} {mem : Mem}
    (hElen : mem.length = E) (hE1 : 1 ≤ E) (hE : E ≤ 65535) :
    loadObjectData E (resetOp E mem) = [] := by
  have h1 : sub16 E 1 = E - 1 := by rw [sub16_eq (by omega) (by omega)]
  simp only [loadObjectData, getObjectAmount, resetOp, h1]
  rw [readByte_updateByte_self _ (by omega)]
  simp

theorem INV_reset {E : Nat} {mem : Mem} (h : INV E mem) :
    INV E (resetOp E mem) := by
  obtain ⟨hlen, hE1, hE, hbytes, hnd, hfit⟩ := h
  have hdec := loadObjectData_resetOp hlen hE1 hE
  refine ⟨?_, hE1, hE, ?_, ?_, ?_⟩
  · rw [resetOp, length_updateByte, hlen]
  · exact mem_updateByte hbytes (by omega) _
  · rw [hdec]
    exact List.nodup_nil
  · rw [hdec]
    simp [sizeSum]
    omega

theorem INV_remove {E : Nat} {mem : Mem} (id : Nat) (h : INV E mem) :
    INV E (removeOp E mem id) := by
  obtain ⟨hlen, hE1, hE, hbytes, hnd, hfit⟩ := h
  cases hfind : findId (loadObjectData E mem) id with
  | none => rw [removeOp_none hfind]; exact ⟨hlen, hE1, hE, hbytes, hnd, hfit⟩
  | some index =>
      obtain ⟨r1, r2, r3, _, _⟩ := removeOp_spec hE hlen hfit hbytes hfind
      have hidx : index < (loadObjectData E mem).length :=
        (findId_some hfind).1
      have herase := sizeSum_eraseIdx (l := loadObjectData E mem) hidx
      have herlen := List.length_eraseIdx_of_lt hidx
      refine ⟨r1, hE1, hE, r3, ?_, ?_⟩
      · rw [r2]
        exact nodup_ids_eraseIdx index hnd
      · rw [r2, herlen]
        omega

theorem loadObjectData_ramToEEPROM_data {E a n : Nat} {mem : Mem}
    {src : List Nat} (hE : E ≤ 65535)
    (h3 : 1 + 3 * getObjectAmount E mem ≤ E)
    (hfit : a + n ≤ E - 1 - 3 * getObjectAmount E mem) :
    loadObjectData E (ramToEEPROM mem a src n) = loadObjectData E mem := by
  apply loadObjectData_congr h3 hE
  intro x hx
  exact readByte_ramToEEPROM_out _
    (fun i hi => by rw [w16_eq (by omega)]; omega)

end EZPROM

namespace EZPROM

theorem ids_append (u : List ObjectData) (e : ObjectData) :
    ids (u ++ [e]) = ids u ++ [e.id] := by
  simp [ids]

theorem nodup_ids_append {u : List ObjectData} {e : ObjectData}
    (hn : (ids u).Nodup) (hnotin : ∀ od ∈ u, od.id ≠ e.id) :
    (ids (u ++ [e])).Nodup := by
  rw [ids_append, List.nodup_append]
  refine ⟨hn, List.nodup_singleton _, ?_⟩
  intro a ha hb
  rcases List.mem_singleton.mp hb with rfl
  simp only [ids, List.mem_map] at ha
  obtain ⟨od, hod, hodid⟩ := ha
  exact hnotin od hod hodid

theorem sizeSum_append (u : List ObjectData) (e : ObjectData) :
    sizeSum (u ++ [e]) = sizeSum u + e.size := by
  simp [sizeSum]

/-- Lemma: `save` preserves well-formedness, for a uint8 id, byte-valued record
contents, and a record small enough that the uint16 space computation does
not wrap. -/
theorem INV_save {E : Nat} {mem : Mem} {ow : Bool} {id : Nat} {src : List Nat}
    (h : INV E mem) (hid : id < 256) (hsrc : ∀ b ∈ src, b < 256)
    (hnoov : sizeSum (loadObjectData E mem) + 1
      + 3 * (loadObjectData E mem).length + src.length + 3 < 65536) :
    INV E (save E mem ow id src).2 := by
  obtain ⟨hlen, hE1, hE, hbytes, hnd, hfit⟩ := h
  set l := loadObjectData E mem with hl
  have hc : getObjectAmount E mem = l.length := (length_loadObjectData E mem).symm
  have hc256 : l.length < 256 := by
    rw [← hc]
    exact getObjectAmount_lt hbytes
  have hsl : src.length < 65536 := by omega
  have hw : w16 src.length = src.length := w16_eq hsl
  cases hfind : findId l id with
  | some index =>
      have hidx : index < l.length := (findId_some hfind).1
      have hidid : (l.getD index ⟨0, 0⟩).id = id := (findId_some hfind).2
      by_cases hsize : (l.getD index ⟨0, 0⟩).size = w16 src.length
      · -- in-place overwrite of an unchanged-size record
        simp only [save_found_same_eq hfind hsize]
        have hsum : sizeSum l < 65536 := by omega
        have hA : getAddressAt l index = addrSum l index :=
          getAddressAt_eq _ hsum
        have hbound : addrSum l index + (l.getD index ⟨0, 0⟩).size
            ≤ sizeSum l := by
          rw [← addrSum_succ hidx]
          exact addrSum_le_sizeSum _ _
        have hdec : loadObjectData E (ramToEEPROM mem (getAddressAt l index)
            src (l.getD index ⟨0, 0⟩).size) = l := by
          rw [hA]
          exact loadObjectData_ramToEEPROM_data hE (by omega) (by rw [hc]; omega)
        refine ⟨?_, hE1, hE, ?_, ?_, ?_⟩
        · rw [length_ramToEEPROM, hlen]
        · exact mem_ramToEEPROM _ _ hbytes hsrc
        · rw [hdec]
          exact hnd
        · rw [hdec]
          exact hfit
      · by_cases how : ow = true
        · subst how
          by_cases hspace : w16 (sizeSum (l.eraseIdx index)
              + (1 + 3 * getObjectAmount E mem) + w16 src.length) ≤ E
          · simp only [save_found_diff_resize_space_eq hfind hsize hspace]
            obtain ⟨r1, r2, r3, _, _⟩ := removeOp_spec hE hlen hfit hbytes hfind
            have hszu : ∀ od ∈ l.eraseIdx index, od.size < 65536 :=
              fun od hod => loadObjectData_size_lt hbytes od
                ((List.eraseIdx_sublist l index).subset hod)
            have hulen : (l.eraseIdx index).length = l.length - 1 :=
              List.length_eraseIdx_of_lt hidx
            have hsse := sizeSum_eraseIdx (l := l) hidx
            have hspace' : sizeSum (l.eraseIdx index) + (1 + 3 * l.length)
                + src.length ≤ E := by
              rw [hc, hw, w16_eq (by omega)] at hspace
              exact hspace
            have hn1 : getObjectAmount E mem - 1 = (l.eraseIdx index).length := by
              rw [hc, hulen]
            rw [hn1]
            obtain ⟨_, s2, s3, _, _⟩ := @saveInsert_spec E (removeOp E mem id)
              id (w16 src.length) src (l.eraseIdx index) r1 hE
              (by rw [hw]; omega) (by omega) hszu
            refine ⟨s2, hE1, hE, ?_, ?_, ?_⟩
            · exact mem_saveInsert r3 hsrc hid
                (fun od hod => loadObjectData_id_lt hbytes od
                  ((List.eraseIdx_sublist l index).subset hod))
            · rw [s3]
              apply nodup_ids_append (nodup_ids_eraseIdx index hnd)
              have hne := eraseIdx_id_not_mem hnd hidx
              rw [hidid] at hne
              exact hne
            · rw [s3, sizeSum_append, List.length_append]
              simp only [List.length_cons, List.length_nil]
              rw [hw, hulen]
              omega
          · simp only [save_found_diff_resize_nospace_eq hfind hsize hspace]
            exact ⟨hlen, hE1, hE, hbytes, hnd, hfit⟩
        · have how' : ow = false := by
            rcases ow with _ | _
            · rfl
            · exact absurd rfl how
          subst how'
          simp only [save_found_diff_noresize_eq hfind hsize]
          exact ⟨hlen, hE1, hE, hbytes, hnd, hfit⟩
  | none =>
      by_cases hspace : w16 (sizeSum l + (1 + 3 * getObjectAmount E mem)
          + w16 src.length + 3) ≤ E
      · simp only [save_fresh_space_eq hfind hspace]
        rw [hc]
        rcases Nat.lt_or_ge l.length 255 with hlt | hge
        · have hspace' : sizeSum l + (1 + 3 * l.length) + src.length + 3 ≤ E := by
            rw [hc, hw, w16_eq (by omega)] at hspace
            exact hspace
          obtain ⟨_, s2, s3, _, _⟩ := @saveInsert_spec E mem id
            (w16 src.length) src l hlen hE (by rw [hw]; omega) hlt
            (loadObjectData_size_lt hbytes)
          refine ⟨s2, hE1, hE, ?_, ?_, ?_⟩
          · exact mem_saveInsert hbytes hsrc hid (loadObjectData_id_lt hbytes)
          · rw [s3]
            exact nodup_ids_append hnd (findId_none.mp hfind)
          · rw [s3, sizeSum_append, List.length_append]
            simp only [List.length_cons, List.length_nil]
            rw [hw]
            omega
        · -- 255 entries: the uint8 count wraps to 0, the store decodes empty
          have h255 : l.length = 255 := by omega
          have hm1len : (ramToEEPROM mem
              (getAddressAt (l ++ [⟨id, w16 src.length⟩]) l.length) src
              (w16 src.length)).length = E := by
            rw [length_ramToEEPROM, hlen]
          have hdec : loadObjectData E
              (saveInsert E mem id src (w16 src.length) l l.length).2 = [] := by
            simp only [saveInsert]
            rw [h255]
            have hmod : (255 + 1) % 256 = 0 := by norm_num
            rw [hmod]
            rw [loadObjectData_saveObjectData (by omega) hE
              (by rw [length_ramToEEPROM, hlen]) (by simp)
              (fun od hod => by
                rcases List.mem_append.mp hod with hh | hh
                · exact loadObjectData_size_lt hbytes od hh
                · rcases List.mem_singleton.mp hh with rfl
                  simpa [w16] using Nat.mod_lt src.length (by omega))]
            simp
          refine ⟨?_, hE1, hE, ?_, ?_, ?_⟩
          · simp only [saveInsert]
            rw [length_saveObjectData, length_ramToEEPROM, hlen]
          · exact mem_saveInsert hbytes hsrc hid (loadObjectData_id_lt hbytes)
          · rw [hdec]
            exact List.nodup_nil
          · rw [hdec]
            simp [sizeSum]
            omega
      · simp only [save_fresh_nospace_eq hfind hspace]
        exact ⟨hlen, hE1, hE, hbytes, hnd, hfit⟩

end EZPROM

namespace EZPROM

/-! ## Reachable states -/

theorem loadObjectData_of_count_zero {E : Nat} {mem : Mem}
    (hcount : readByte mem (sub16 E 1) = 0) : loadObjectData E mem = [] := by
  simp [loadObjectData, getObjectAmount, hcount]

/-- States reachable from an empty store (count byte 0) by the mutating
operations.  A `save` step records that the id is a uint8, the record bytes
are bytes, and the record is small enough that the uint16 space arithmetic
in `save` cannot wrap (any record that fits a real store satisfies this). -/
inductive Reachable (E : Nat) : Mem → Prop where
  | init (mem : Mem) : mem.length = E → 1 ≤ E → E ≤ 65535 →
      (∀ b ∈ mem, b < 256) → readByte mem (sub16 E 1) = 0 →
      Reachable E mem
  | save_step (mem : Mem) (ow : Bool) (id : Nat) (src : List Nat) :
      Reachable E mem → id < 256 → (∀ b ∈ src, b < 256) →
      sizeSum (loadObjectData E mem) + 1 + 3 * (loadObjectData E mem).length
        + src.length + 3 < 65536 →
      Reachable E (save E mem ow id src).2
  | remove_step (mem : Mem) (id : Nat) : Reachable E mem →
      Reachable E (removeOp E mem id)
  | reset_step (mem : Mem) : Reachable E mem → Reachable E (resetOp E mem)

/-- Every reachable state is well-formed. -/
theorem reachable_inv {E : Nat} {mem : Mem} (h : Reachable E mem) :
    INV E mem := by
  induction h with
  | init mem hlen hE1 hE hbytes hcount =>
      have hdec := loadObjectData_of_count_zero hcount
      refine ⟨hlen, hE1, hE, hbytes, ?_, ?_⟩
      · rw [hdec]
        exact List.nodup_nil
      · rw [hdec]
        simp [sizeSum]
        omega
  | save_step mem ow id src _ hid hsrc hnoov ih => exact INV_save ih hid hsrc hnoov
  | remove_step mem id _ ih => exact INV_remove id ih
  | reset_step mem _ ih => exact INV_reset ih

/-! ## Claim theorems -/

/-- C10: the query operations `exists`, `getObjectData`, `getAddress` and
`load` leave every byte of the medium unchanged, for every id (present or
absent): their memory component is the input memory. -/
theorem c10_queries_pure (E : Nat) (mem : Mem) (id : Nat) (dest : List Nat) :
    (existsOp E mem id).2 = mem ∧ (getObjectDataOp E mem id).2 = mem ∧
    (getAddressOf E mem id).2 = mem ∧ (loadOp E mem id dest).2.2 = mem := by
  refine ⟨rfl, ?_, ?_, ?_⟩
  · simp only [getObjectDataOp]
    cases findId (loadObjectData E mem) id <;> rfl
  · simp only [getAddressOf]
    cases findId (loadObjectData E mem) id <;> rfl
  · simp only [loadOp]
    cases findId (loadObjectData E mem) id <;> rfl

/-- C8: `reset` writes only the final count byte, setting it to 0, and
afterwards `exists` is false for every id. -/
theorem c8_reset (E : Nat) (mem : Mem) (hElen : mem.length = E) (hE1 : 1 ≤ E)
    (hE : E ≤ 65535) :
    (∀ x, x ≠ E - 1 → readByte (resetOp E mem) x = readByte mem x) ∧
    readByte (resetOp E mem) (E - 1) = 0 ∧
    (∀ id, (existsOp E (resetOp E mem) id).1 = false) := by
  have h1 : sub16 E 1 = E - 1 := by rw [sub16_eq (by omega) (by omega)]
  refine ⟨?_, ?_, ?_⟩
  · intro x hx
    unfold resetOp
    rw [h1]
    exact readByte_updateByte_ne _ (Ne.symm hx)
  · unfold resetOp
    rw [h1]
    exact readByte_updateByte_self _ (by omega)
  · intro id
    have hdec : loadObjectData E (resetOp E mem) = [] :=
      loadObjectData_resetOp hElen hE1 hE
    simp [existsOp, hdec, findId, findIdAux]

theorem c8_reset_witness :
    (∀ x, x ≠ 7 → readByte (resetOp 8 [9, 9, 9, 9, 9, 9, 9, 2]) x
      = readByte [9, 9, 9, 9, 9, 9, 9, 2] x) ∧
    readByte (resetOp 8 [9, 9, 9, 9, 9, 9, 9, 2]) 7 = 0 ∧
    (∀ id, (existsOp 8 (resetOp 8 [9, 9, 9, 9, 9, 9, 9, 2]) id).1 = false) :=
  c8_reset 8 [9, 9, 9, 9, 9, 9, 9, 2] (by decide) (by decide) (by decide)

/-- C9: when the id is absent or its stored size is not 2, `isValid`
compares the supplied value against the default 0; hence on a store whose
count byte is 0 (freshly reset), `isValid 0` is true and `setup 0` returns
false and changes nothing. -/
theorem c9_isValid_default (E : Nat) (mem : Mem) (ow : Bool) (id : Nat)
    (h : (existsOp E mem id).1 = false ∨
      (getObjectDataOp E mem id).1.size ≠ 2) :
    (∀ u, isValid E mem u id = (0 == u)) ∧
    isValid E mem 0 id = true ∧
    setup E mem ow 0 id = (false, mem) := by
  have hneg : ¬((existsOp E mem id).1 = true ∧
      (getObjectDataOp E mem id).1.size = 2) := by
    rcases h with h | h
    · intro hc
      rw [h] at hc
      exact Bool.false_ne_true hc.1
    · intro hc
      exact h hc.2
  have hcur : ∀ u, isValid E mem u id = (0 == u) := by
    intro u
    unfold isValid
    rw [if_neg hneg]
  refine ⟨hcur, ?_, ?_⟩
  · rw [hcur 0]
    rfl
  · unfold setup
    rw [if_pos ?_]
    rw [hcur 0]
    rfl

theorem c9_isValid_default_witness :
    ((existsOp 8 [0, 0, 0, 0, 0, 0, 0, 0] 3).1 = false ∨
      (getObjectDataOp 8 [0, 0, 0, 0, 0, 0, 0, 0] 3).1.size ≠ 2) ∧
    ((∀ u, isValid 8 [0, 0, 0, 0, 0, 0, 0, 0] u 3 = (0 == u)) ∧
      isValid 8 [0, 0, 0, 0, 0, 0, 0, 0] 0 3 = true ∧
      setup 8 [0, 0, 0, 0, 0, 0, 0, 0] false 0 3
        = (false, [0, 0, 0, 0, 0, 0, 0, 0])) :=
  ⟨Or.inl (by decide),
    c9_isValid_default 8 [0, 0, 0, 0, 0, 0, 0, 0] false 3 (Or.inl (by decide))⟩

end EZPROM

namespace EZPROM

/-- C6: with resizing disabled, saving an existing id with a different size
returns false and leaves the memory (directory, count byte, and every
record byte) unchanged, so a subsequent load is unaffected. -/
theorem c6_resize_rejected {E index : Nat} {mem : Mem} {id : Nat}
    {src : List Nat} (dest : List Nat)
    (hfind : findId (loadObjectData E mem) id = some index)
    (hsize : ((loadObjectData E mem).getD index ⟨0, 0⟩).size ≠ w16 src.length) :
    save E mem false id src = (false, mem) ∧
    loadOp E (save E mem false id src).2 id dest = loadOp E mem id dest := by
  have h := save_found_diff_noresize_eq hfind hsize
  exact ⟨h, by rw [h]⟩

/-- An 8-byte store holding one record: id 1, 2 bytes `[10, 20]` at address
0; directory entry at bytes 4–6, count byte 1 at address 7. -/
def c2Mem : Mem := [10, 20, 0, 0, 1, 2, 0, 1]

theorem c6_resize_rejected_witness :
    findId (loadObjectData 8 c2Mem) 1 = some 0 ∧
    ((loadObjectData 8 c2Mem).getD 0 ⟨0, 0⟩).size ≠ w16 3 ∧
    (save 8 c2Mem false 1 [7, 7, 7] = (false, c2Mem) ∧
      loadOp 8 (save 8 c2Mem false 1 [7, 7, 7]).2 1 [0, 0]
        = loadOp 8 c2Mem 1 [0, 0]) :=
  ⟨by decide, by decide,
    @c6_resize_rejected 8 0 c2Mem 1 [7, 7, 7] [0, 0] (by decide) (by decide)⟩

/-- C2 as stated is false: with resizing allowed and a resize whose space
check fails, `save` returns false with NO prior mutation — the id is still
present afterwards, because the space check precedes the removal
(EZPROM.h: `if (totalSize <= EEPROM.length()) { ... remove(id); ... }`). -/
theorem c2_counterexample :
    save 8 c2Mem true 1 [9, 9, 9, 9, 9] = (false, c2Mem) ∧
    (existsOp 8 c2Mem 1).1 = true ∧
    (existsOp 8 (save 8 c2Mem true 1 [9, 9, 9, 9, 9]).2 1).1 = true := by
  decide

/-- C2 (amended): when resizing is allowed and the computed total exceeds
capacity, `save` returns false and nothing has been mutated: the old entry
is still present with its memory untouched. -/
theorem c2_resize_fail_no_mutation {E index : Nat} {mem : Mem} {id : Nat}
    {src : List Nat}
    (hfind : findId (loadObjectData E mem) id = some index)
    (hsize : ((loadObjectData E mem).getD index ⟨0, 0⟩).size ≠ w16 src.length)
    (hspace : ¬ w16 (sizeSum ((loadObjectData E mem).eraseIdx index)
      + (1 + 3 * getObjectAmount E mem) + w16 src.length) ≤ E) :
    save E mem true id src = (false, mem) ∧
    (existsOp E mem id).1 = true ∧
    (existsOp E (save E mem true id src).2 id).1 = true := by
  have h := save_found_diff_resize_nospace_eq hfind hsize hspace
  refine ⟨h, ?_, ?_⟩
  · simp [existsOp, hfind]
  · rw [h]
    simp [existsOp, hfind]

theorem c2_resize_fail_no_mutation_witness :
    findId (loadObjectData 8 c2Mem) 1 = some 0 ∧
    ((loadObjectData 8 c2Mem).getD 0 ⟨0, 0⟩).size ≠ w16 5 ∧
    (¬ w16 (sizeSum ((loadObjectData 8 c2Mem).eraseIdx 0)
      + (1 + 3 * getObjectAmount 8 c2Mem) + w16 5) ≤ 8) ∧
    (save 8 c2Mem true 1 [9, 9, 9, 9, 9] = (false, c2Mem) ∧
      (existsOp 8 c2Mem 1).1 = true ∧
      (existsOp 8 (save 8 c2Mem true 1 [9, 9, 9, 9, 9]).2 1).1 = true) :=
  ⟨by decide, by decide, by decide,
    @c2_resize_fail_no_mutation 8 0 c2Mem 1 [9, 9, 9, 9, 9] (by decide)
      (by decide) (by decide)⟩

/-- C5: after any sequence of operations starting from an empty store, the
directory ids are pairwise distinct. -/
theorem c5_unique_ids {E : Nat} {mem : Mem} (h : Reachable E mem) :
    (ids (loadObjectData E mem)).Nodup :=
  (reachable_inv h).2.2.2.2.1

theorem c5_unique_ids_witness :
    (ids (loadObjectData 20
      (removeOp 20
        (save 20 (save 20 (List.replicate 20 0) false 5 [1, 2, 3]).2
          false 6 [4]).2 5))).Nodup :=
  c5_unique_ids
    (Reachable.remove_step _ 5
      (Reachable.save_step _ false 6 [4]
        (Reachable.save_step _ false 5 [1, 2, 3]
          (Reachable.init _ (by decide) (by decide) (by decide) (by decide)
            (by decide))
          (by decide) (by decide) (by decide))
        (by decide) (by decide) (by decide)))

end EZPROM

namespace EZPROM

/-- C7: saving an existing id with its stored size succeeds, rewrites only
the record's bytes at its computed address (each byte written with the
update-if-changed primitive), leaves the directory, the count byte and all
other bytes unchanged, and a second identical save changes nothing at all. -/
theorem c7_same_size_overwrite {E index : Nat} {mem : Mem} {ow : Bool}
    {id : Nat} {src : List Nat}
    (hinv : INV E mem)
    (hfind : findId (loadObjectData E mem) id = some index)
    (hsize : ((loadObjectData E mem).getD index ⟨0, 0⟩).size = w16 src.length) :
    (save E mem ow id src).1 = true ∧
    loadObjectData E (save E mem ow id src).2 = loadObjectData E mem ∧
    (∀ x, x < getAddressAt (loadObjectData E mem) index ∨
        getAddressAt (loadObjectData E mem) index + w16 src.length ≤ x →
      readByte (save E mem ow id src).2 x = readByte mem x) ∧
    (∀ i < w16 src.length,
      readByte (save E mem ow id src).2
        (getAddressAt (loadObjectData E mem) index + i) = src.getD i 0) ∧
    (save E (save E mem ow id src).2 ow id src).2
      = (save E mem ow id src).2 := by
  obtain ⟨hlen, hE1, hE, hbytes, hnd, hfit⟩ := hinv
  set l := loadObjectData E mem with hl
  have hc : getObjectAmount E mem = l.length := (length_loadObjectData E mem).symm
  have hidx : index < l.length := (findId_some hfind).1
  have hsum : sizeSum l < 65536 := by omega
  have hA : getAddressAt l index = addrSum l index := getAddressAt_eq _ hsum
  have hbound : addrSum l index + w16 src.length ≤ sizeSum l := by
    rw [← hsize, ← addrSum_succ hidx]
    exact addrSum_le_sizeSum _ _
  have heq := @save_found_same_eq E mem ow id index src hfind hsize
  rw [← hl] at heq
  have hdec : loadObjectData E (save E mem ow id src).2 = l := by
    simp only [heq]
    rw [hA]
    exact loadObjectData_ramToEEPROM_data hE (by omega) (by rw [hc, hsize]; omega)
  have hframe : ∀ x, x < getAddressAt l index ∨
      getAddressAt l index + w16 src.length ≤ x →
      readByte (save E mem ow id src).2 x = readByte mem x := by
    intro x hx
    simp only [heq]
    rw [hsize, hA]
    rw [hA] at hx
    apply readByte_ramToEEPROM_out
    intro i hi
    rw [w16_eq (by omega)]
    omega
  have hcontent : ∀ i < w16 src.length,
      readByte (save E mem ow id src).2
        (getAddressAt l index + i) = src.getD i 0 := by
    intro i hi
    simp only [heq]
    rw [hsize, hA]
    exact readByte_ramToEEPROM_in _ (by omega) (by omega) hi
  refine ⟨by simp only [heq], hdec, hframe, hcontent, ?_⟩
  have hfind2 : findId (loadObjectData E (save E mem ow id src).2) id
      = some index := by rw [hdec]; exact hfind
  have hsize2 : ((loadObjectData E (save E mem ow id src).2).getD index
      ⟨0, 0⟩).size = w16 src.length := by rw [hdec]; exact hsize
  have heq2 := @save_found_same_eq E (save E mem ow id src).2 ow id index src hfind2 hsize2
  simp only [heq2, hdec]
  apply ramToEEPROM_noop
  rw [hsize, hA]
  intro i hi
  rw [w16_eq (by omega), ← hA]
  exact hcontent i hi

theorem c7_same_size_overwrite_witness :
    INV 8 c2Mem ∧
    findId (loadObjectData 8 c2Mem) 1 = some 0 ∧
    ((loadObjectData 8 c2Mem).getD 0 ⟨0, 0⟩).size = w16 2 ∧
    ((save 8 c2Mem false 1 [30, 40]).1 = true ∧
      loadObjectData 8 (save 8 c2Mem false 1 [30, 40]).2
        = loadObjectData 8 c2Mem ∧
      (∀ x, x < getAddressAt (loadObjectData 8 c2Mem) 0 ∨
          getAddressAt (loadObjectData 8 c2Mem) 0 + w16 2 ≤ x →
        readByte (save 8 c2Mem false 1 [30, 40]).2 x = readByte c2Mem x) ∧
      (∀ i < w16 2,
        readByte (save 8 c2Mem false 1 [30, 40]).2
          (getAddressAt (loadObjectData 8 c2Mem) 0 + i)
          = [30, 40].getD i 0) ∧
      (save 8 (save 8 c2Mem false 1 [30, 40]).2 false 1 [30, 40]).2
        = (save 8 c2Mem false 1 [30, 40]).2) :=
  ⟨by unfold INV; decide, by decide, by decide,
    @c7_same_size_overwrite 8 0 c2Mem false 1 [30, 40]
      (by unfold INV; decide) (by decide) (by decide)⟩

end EZPROM

namespace EZPROM

/-- C3 (amended): for a previously-absent id, when the space computation
stays within uint16 range, the save succeeds exactly when all live record
sizes plus directory overhead for one more entry plus the new record fit the
capacity; on failure, nothing is written. -/
theorem c3_fresh_save_iff {E : Nat} {mem : Mem} {ow : Bool} {id : Nat}
    {src : List Nat}
    (hfind : findId (loadObjectData E mem) id = none)
    (hnoov : sizeSum (loadObjectData E mem) + 1
      + ((loadObjectData E mem).length + 1) * 3 + src.length < 65536) :
    ((save E mem ow id src).1 = true ↔
      sizeSum (loadObjectData E mem) + 1
        + ((loadObjectData E mem).length + 1) * 3 + src.length ≤ E) ∧
    ((save E mem ow id src).1 = false → (save E mem ow id src).2 = mem) := by
  have hc : getObjectAmount E mem = (loadObjectData E mem).length :=
    (length_loadObjectData E mem).symm
  have hsl : src.length < 65536 := by omega
  have hw : w16 src.length = src.length := w16_eq hsl
  have htot : w16 (sizeSum (loadObjectData E mem)
      + (1 + 3 * getObjectAmount E mem) + w16 src.length + 3)
      = sizeSum (loadObjectData E mem) + 1
        + ((loadObjectData E mem).length + 1) * 3 + src.length := by
    rw [hc, hw, w16_eq (by omega)]
    omega
  by_cases hspace : w16 (sizeSum (loadObjectData E mem)
      + (1 + 3 * getObjectAmount E mem) + w16 src.length + 3) ≤ E
  · have heq := @save_fresh_space_eq E mem ow id src hfind hspace
    rw [heq]
    refine ⟨⟨fun _ => ?_, fun _ => ?_⟩, fun hf => ?_⟩
    · rw [← htot]
      exact hspace
    · rfl
    · simp [saveInsert] at hf
  · have heq := @save_fresh_nospace_eq E mem ow id src hfind hspace
    rw [heq]
    rw [htot] at hspace
    exact ⟨⟨fun h => by simp at h, fun h => absurd h hspace⟩, fun _ => rfl⟩

/-- A 104-byte store holding one 100-byte record under id 1 (directory
entry at bytes 100–102, count byte 1 at address 103). -/
def c3Mem : Mem := saveObjectData 104 (List.replicate 104 0) [⟨1, 100⟩] 1

/-- C3 as stated is false: the space total is computed in uint16, so for a
fresh id with a 65429-byte record the total `100 + 1 + 2*3 + 65429 = 65536`
wraps to 0 and the save is accepted, although the claim's inequality
demands failure. -/
theorem c3_counterexample :
    (existsOp 104 c3Mem 2).1 = false ∧
    sizeSum (loadObjectData 104 c3Mem) + 1
      + ((loadObjectData 104 c3Mem).length + 1) * 3
      + (List.replicate 65429 7).length > 104 ∧
    (save 104 c3Mem false 2 (List.replicate 65429 7)).1 = true := by
  have hfind : findId (loadObjectData 104 c3Mem) 2 = none := by decide
  have hspace : w16 (sizeSum (loadObjectData 104 c3Mem)
      + (1 + 3 * getObjectAmount 104 c3Mem)
      + w16 (List.replicate 65429 7).length + 3) ≤ 104 := by
    rw [List.length_replicate]
    decide
  refine ⟨by decide, ?_, ?_⟩
  · rw [List.length_replicate]
    decide
  · rw [save_fresh_space_eq hfind hspace]
    rfl

theorem c3_fresh_save_iff_witness :
    findId (loadObjectData 8 c2Mem) 4 = none ∧
    sizeSum (loadObjectData 8 c2Mem) + 1
      + ((loadObjectData 8 c2Mem).length + 1) * 3 + 2 < 65536 ∧
    (((save 8 c2Mem false 4 [5, 5]).1 = true ↔
      sizeSum (loadObjectData 8 c2Mem) + 1
        + ((loadObjectData 8 c2Mem).length + 1) * 3 + 2 ≤ 8) ∧
    ((save 8 c2Mem false 4 [5, 5]).1 = false →
      (save 8 c2Mem false 4 [5, 5]).2 = c2Mem)) :=
  ⟨by decide, by decide,
    @c3_fresh_save_iff 8 c2Mem false 4 [5, 5] (by decide) (by decide)⟩

end EZPROM

namespace EZPROM

/-- C4: removing a present id drops its entry (later entries shift down one
slot), decrements the persisted count, and moves every following record down
by the removed record's size, so each remaining record's bytes sit at the
prefix-sum address of the new directory; records before the removed one are
untouched.  Removing an absent id changes nothing. -/
theorem c4_remove {E : Nat} {mem : Mem} (id : Nat) (hinv : INV E mem) :
    (∀ index, findId (loadObjectData E mem) id = some index →
      loadObjectData E (removeOp E mem id)
        = (loadObjectData E mem).eraseIdx index ∧
      getObjectAmount E (removeOp E mem id)
        = (loadObjectData E mem).length - 1 ∧
      (∀ j b, j < ((loadObjectData E mem).eraseIdx index).length →
        b < (((loadObjectData E mem).eraseIdx index).getD j ⟨0, 0⟩).size →
        readByte (removeOp E mem id)
            (addrSum ((loadObjectData E mem).eraseIdx index) j + b)
          = readByte mem (addrSum (loadObjectData E mem)
              (if j < index then j else j + 1) + b))) ∧
    (findId (loadObjectData E mem) id = none → removeOp E mem id = mem) := by
  obtain ⟨hlen, hE1, hE, hbytes, hnd, hfit⟩ := hinv
  refine ⟨?_, removeOp_none⟩
  intro index hfind
  obtain ⟨r1, r2, r3, r4, r5⟩ := removeOp_spec hE hlen hfit hbytes hfind
  set l := loadObjectData E mem with hl
  have hidx : index < l.length := (findId_some hfind).1
  have hulen : (l.eraseIdx index).length = l.length - 1 :=
    List.length_eraseIdx_of_lt hidx
  refine ⟨r2, ?_, ?_⟩
  · rw [← length_loadObjectData, r2, hulen]
  · intro j b hj hb
    by_cases hjlt : j < index
    · rw [if_pos hjlt]
      have h1 : addrSum (l.eraseIdx index) j = addrSum l j :=
        addrSum_eraseIdx_of_le (by omega) (by omega)
      have h2 : addrSum (l.eraseIdx index) j
          + ((l.eraseIdx index).getD j ⟨0, 0⟩).size
          ≤ addrSum (l.eraseIdx index) index := by
        rw [← addrSum_succ (by omega)]
        exact addrSum_mono _ (by omega)
      have h3 : addrSum (l.eraseIdx index) index = addrSum l index :=
        addrSum_eraseIdx_of_le (by omega) (Nat.le_refl _)
      rw [h1]
      rw [h1, h3] at h2
      apply r4
      omega
    · rw [if_neg hjlt]
      have hge : index ≤ j := by omega
      have hNle : addrSum l index ≤ addrSum (l.eraseIdx index) j := by
        have h0 := addrSum_eraseIdx_of_le (Nat.le_of_lt hidx) (Nat.le_refl index)
        rw [← h0]
        exact addrSum_mono _ hge
      have hwin : addrSum (l.eraseIdx index) j + b
          < sizeSum (l.eraseIdx index) := by
        have h4 := addrSum_succ (l := l.eraseIdx index) hj
        have h5 := addrSum_le_sizeSum (l.eraseIdx index) (j + 1)
        omega
      have hsrc : addrSum (l.eraseIdx index) j + (l.getD index ⟨0, 0⟩).size
          = addrSum l (j + 1) := addrSum_eraseIdx_of_ge hidx hge
      have hk := r5 (addrSum (l.eraseIdx index) j + b - addrSum l index)
        (by omega)
      have e1 : addrSum l index
          + (addrSum (l.eraseIdx index) j + b - addrSum l index)
          = addrSum (l.eraseIdx index) j + b := by omega
      have e2 : addrSum l index + (l.getD index ⟨0, 0⟩).size
          + (addrSum (l.eraseIdx index) j + b - addrSum l index)
          = addrSum l (j + 1) + b := by omega
      rw [e1, e2] at hk
      exact hk

/-- A 30-byte store with records a(id 1, 4 bytes), b(id 2, 6 bytes),
c(id 3, 2 bytes) at addresses 0, 4, 10; directory at bytes 20–28,
count byte 3 at address 29. -/
def c4Mem : Mem :=
  saveObjectData 30
    ([101, 102, 103, 104, 201, 202, 203, 204, 205, 206, 31, 32]
      ++ List.replicate 18 0)
    [⟨1, 4⟩, ⟨2, 6⟩, ⟨3, 2⟩] 3

theorem c4_remove_witness :
    INV 30 c4Mem ∧
    findId (loadObjectData 30 c4Mem) 2 = some 1 ∧
    loadObjectData 30 (removeOp 30 c4Mem 2) = [⟨1, 4⟩, ⟨3, 2⟩] ∧
    getAddressAt (loadObjectData 30 (removeOp 30 c4Mem 2)) 0 = 0 ∧
    getAddressAt (loadObjectData 30 (removeOp 30 c4Mem 2)) 1 = 4 ∧
    getObjectAmount 30 (removeOp 30 c4Mem 2) = 2 ∧
    (loadObjectData 30 (removeOp 30 c4Mem 2)
        = (loadObjectData 30 c4Mem).eraseIdx 1 ∧
      getObjectAmount 30 (removeOp 30 c4Mem 2)
        = (loadObjectData 30 c4Mem).length - 1 ∧
      (∀ j b, j < ((loadObjectData 30 c4Mem).eraseIdx 1).length →
        b < (((loadObjectData 30 c4Mem).eraseIdx 1).getD j ⟨0, 0⟩).size →
        readByte (removeOp 30 c4Mem 2)
            (addrSum ((loadObjectData 30 c4Mem).eraseIdx 1) j + b)
          = readByte c4Mem (addrSum (loadObjectData 30 c4Mem)
              (if j < 1 then j else j + 1) + b))) :=
  ⟨by unfold INV; decide, by decide, by decide, by decide, by decide,
    by decide,
    (@c4_remove 30 c4Mem 2 (by unfold INV; decide)).1 1 (by decide)⟩

end EZPROM

namespace EZPROM

theorem getD_concat_length (l : List ObjectData) (e : ObjectData) :
    (l ++ [e]).getD l.length ⟨0, 0⟩ = e := by
  rw [getD_eq_get (by simp)]
  exact List.getElem_concat_length _ _ _ rfl _

theorem getAddressAt_concat (l : List ObjectData) (e : ObjectData)
    (h : sizeSum l < 65536) :
    getAddressAt (l ++ [e]) l.length = sizeSum l := by
  unfold getAddressAt
  rw [List.take_left]
  exact w16_eq h

set_option maxHeartbeats 2000000 in
/-- C1 (amended): whenever a `save` succeeds on a store whose directory has
fewer than 255 entries (so the uint8 count cannot wrap) and whose space
arithmetic stays within uint16, a `load` of the same id into a buffer of the
record's size retrieves exactly the saved bytes. -/
theorem c1_roundtrip {E : Nat} {mem : Mem} {ow : Bool} {id : Nat}
    {src dest : List Nat}
    (hinv : INV E mem)
    (hcnt : (loadObjectData E mem).length < 255)
    (hnoov : sizeSum (loadObjectData E mem) + 1
      + 3 * ((loadObjectData E mem).length + 1) + src.length < 65536)
    (hsucc : (save E mem ow id src).1 = true)
    (hdest : dest.length = src.length) :
    loadOp E (save E mem ow id src).2 id dest
      = (true, src, (save E mem ow id src).2) := by
  obtain ⟨hlen, hE1, hE, hbytes, hnd, hfit⟩ := hinv
  set l := loadObjectData E mem with hl
  have hc : getObjectAmount E mem = l.length := (length_loadObjectData E mem).symm
  have hsl : src.length < 65536 := by omega
  have hw : w16 src.length = src.length := w16_eq hsl
  cases hfind : findId l id with
  | some index =>
      have hidx : index < l.length := (findId_some hfind).1
      have hidid : (l.getD index ⟨0, 0⟩).id = id := (findId_some hfind).2
      by_cases hsize : (l.getD index ⟨0, 0⟩).size = w16 src.length
      · -- path: overwrite in place, same size
        have hsize' : (l.getD index ⟨0, 0⟩).size = src.length := by
          rw [hsize, hw]
        have heq := @save_found_same_eq E mem ow id index src hfind hsize
        rw [← hl] at heq
        have hA : getAddressAt l index = addrSum l index :=
          getAddressAt_eq _ (by omega)
        have hbound : addrSum l index + src.length ≤ sizeSum l := by
          rw [← hsize', ← addrSum_succ hidx]
          exact addrSum_le_sizeSum _ _
        rw [hsize', hA] at heq
        have hdec : loadObjectData E (save E mem ow id src).2 = l := by
          simp only [heq]
          exact loadObjectData_ramToEEPROM_data hE (by omega) (by rw [hc]; omega)
        simp only [loadOp, hdec, hfind]
        rw [hsize', hA]
        have hlb : loadBytes (save E mem ow id src).2 (addrSum l index)
            src.length dest = src := by
          apply loadBytes_eq hdest rfl
          intro i hi
          rw [w16_eq (by omega)]
          simp only [heq]
          exact readByte_ramToEEPROM_in _ (by omega) (by omega) hi
        rw [hlb]
      · by_cases how : ow = true
        · subst how
          by_cases hspace : w16 (sizeSum (l.eraseIdx index)
              + (1 + 3 * getObjectAmount E mem) + w16 src.length) ≤ E
          · -- path: resize (remove then insert)
            have heq := save_found_diff_resize_space_eq hfind hsize hspace
            rw [← hl] at heq
            obtain ⟨r1, r2, r3, _, _⟩ := removeOp_spec hE hlen hfit hbytes hfind
            have hulen : (l.eraseIdx index).length = l.length - 1 :=
              List.length_eraseIdx_of_lt hidx
            have hsse := sizeSum_eraseIdx (l := l) hidx
            have hspace' : sizeSum (l.eraseIdx index) + (1 + 3 * l.length)
                + src.length ≤ E := by
              rw [hc, hw, w16_eq (by omega)] at hspace
              exact hspace
            have hn1 : getObjectAmount E mem - 1 = (l.eraseIdx index).length := by
              rw [hc, hulen]
            rw [hn1] at heq
            obtain ⟨s1, s2, s3, s4, s5⟩ := @saveInsert_spec E
              (removeOp E mem id) id (w16 src.length) src (l.eraseIdx index)
              r1 hE (by rw [hw]; omega) (by omega)
              (fun od hod => loadObjectData_size_lt hbytes od
                ((List.eraseIdx_sublist l index).subset hod))
            have hne : ∀ od ∈ l.eraseIdx index, od.id ≠ id := by
              have := eraseIdx_id_not_mem hnd hidx
              rwa [hidid] at this
            have hfind2 : findId ((l.eraseIdx index)
                ++ [⟨id, w16 src.length⟩]) id
                = some (l.eraseIdx index).length :=
              findId_append_last hne _ rfl
            simp only [heq, loadOp, s3, hfind2]
            rw [getD_concat_length, getAddressAt_concat _ _ (by omega)]
            have hlb : loadBytes (saveInsert E (removeOp E mem id) id src
                (w16 src.length) (l.eraseIdx index)
                (l.eraseIdx index).length).2
                (sizeSum (l.eraseIdx index)) (w16 src.length) dest = src := by
              apply loadBytes_eq (by rw [hdest, hw]) (by rw [hw])
              intro i hi
              rw [w16_eq (show sizeSum (l.eraseIdx index) + i < 65536
                by omega)]
              exact s5 i hi
            rw [hlb]
          · have heq := save_found_diff_resize_nospace_eq hfind hsize hspace
            rw [heq] at hsucc
            simp at hsucc
        · have how' : ow = false := by
            rcases ow with _ | _
            · rfl
            · exact absurd rfl how
          subst how'
          have heq := save_found_diff_noresize_eq hfind hsize
          rw [heq] at hsucc
          simp at hsucc
  | none =>
      by_cases hspace : w16 (sizeSum l + (1 + 3 * getObjectAmount E mem)
          + w16 src.length + 3) ≤ E
      · -- path: fresh insert
        have heq := @save_fresh_space_eq E mem ow id src hfind hspace
        rw [← hl, hc] at heq
        have hspace' : sizeSum l + (1 + 3 * l.length) + src.length + 3 ≤ E := by
          rw [hc, hw, w16_eq (by omega)] at hspace
          exact hspace
        obtain ⟨s1, s2, s3, s4, s5⟩ := @saveInsert_spec E mem id
          (w16 src.length) src l hlen hE (by rw [hw]; omega) hcnt
          (loadObjectData_size_lt hbytes)
        have hfind2 : findId (l ++ [⟨id, w16 src.length⟩]) id = some l.length :=
          findId_append_last (findId_none.mp hfind) _ rfl
        simp only [heq, loadOp, s3, hfind2]
        rw [getD_concat_length, getAddressAt_concat _ _ (by omega)]
        have hlb : loadBytes (saveInsert E mem id src (w16 src.length)
            l l.length).2 (sizeSum l) (w16 src.length) dest = src := by
          apply loadBytes_eq (by rw [hdest, hw]) (by rw [hw])
          intro i hi
          rw [w16_eq (show sizeSum l + i < 65536 by omega)]
          exact s5 i hi
        rw [hlb]
      · have heq := @save_fresh_nospace_eq E mem ow id src hfind hspace
        rw [heq] at hsucc
        simp at hsucc

theorem c1_roundtrip_witness :
    INV 8 c2Mem ∧
    (loadObjectData 8 c2Mem).length < 255 ∧
    sizeSum (loadObjectData 8 c2Mem) + 1
      + 3 * ((loadObjectData 8 c2Mem).length + 1) + 2 < 65536 ∧
    (save 8 c2Mem false 1 [30, 40]).1 = true ∧
    loadOp 8 (save 8 c2Mem false 1 [30, 40]).2 1 [0, 0]
      = (true, [30, 40], (save 8 c2Mem false 1 [30, 40]).2) :=
  ⟨by unfold INV; decide, by decide, by decide, by decide,
    @c1_roundtrip 8 c2Mem false 1 [30, 40] [0, 0] (by unfold INV; decide)
      (by decide) (by decide) (by decide) (by decide)⟩

end EZPROM

namespace EZPROM

/-- A directory of 255 zero-size records with ids 0..254. -/
def c1Dir : List ObjectData := (List.range 255).map (fun i => ⟨i, 0⟩)

/-- A 770-byte store holding the 255 entries of `c1Dir` (count byte 255 at
address 769, directory block at bytes 4–768). -/
def c1Mem : Mem := saveObjectData 770 (List.replicate 770 0) c1Dir 255

/-- Shape facts about `c1Dir`, proved structurally (no deep evaluation). -/
theorem c1Dir_length : c1Dir.length = 255 := by
  simp [c1Dir]

theorem c1Dir_sizes : ∀ od ∈ c1Dir, od.size = 0 := by
  intro od hod
  simp only [c1Dir, List.mem_map] at hod
  obtain ⟨i, _, rfl⟩ := hod
  rfl

theorem c1Dir_ids_lt : ∀ od ∈ c1Dir, od.id < 255 := by
  intro od hod
  simp only [c1Dir, List.mem_map] at hod
  obtain ⟨i, hi, rfl⟩ := hod
  simpa using List.mem_range.mp hi

theorem c1Dir_sizeSum : sizeSum c1Dir = 0 := by
  apply List.sum_eq_zero
  intro x hx
  simp only [sizeSum, List.mem_map] at hx
  obtain ⟨od, hod, rfl⟩ := hx
  exact c1Dir_sizes od hod

theorem c1Dir_ids_nodup : (ids c1Dir).Nodup := by
  have h : ids c1Dir = List.range 255 := by
    simp only [ids, c1Dir, List.map_map]
    exact List.map_id'' (fun x => rfl) _
  rw [h]
  exact List.nodup_range _

/-- C1 as stated is false at the uint8 count limit: on a well-formed
770-byte store with 255 live entries there is enough free capacity for a
fresh 1-byte record (total 0 + 1 + 256*3 + 1 = 770), and `save` succeeds —
but the persisted count `255 + 1` wraps to 0, so the following `load`
finds nothing and the destination keeps its old bytes. -/
theorem c1_counterexample :
    INV 770 c1Mem /\
    (save 770 c1Mem false 255 [7]).1 = true /\
    (loadOp 770 (save 770 c1Mem false 255 [7]).2 255 [0]).1 = false /\
    (loadOp 770 (save 770 c1Mem false 255 [7]).2 255 [0]).2.1 = [0] := by
  have hbase : (List.replicate 770 (0 : Nat)).length = 770 := by
    rw [List.length_replicate]
  have hdecode : loadObjectData 770 c1Mem = c1Dir := by
    unfold c1Mem
    rw [loadObjectData_saveObjectData (by norm_num) (by norm_num) hbase
      (by rw [c1Dir_length]) (fun od hod => by rw [c1Dir_sizes od hod]; norm_num)]
    exact List.take_of_length_le (by rw [c1Dir_length])
  have hcount : getObjectAmount 770 c1Mem = 255 := by
    unfold c1Mem
    exact getObjectAmount_saveObjectData _ (by norm_num) (by norm_num) hbase
  have hmemlen : c1Mem.length = 770 := by
    unfold c1Mem
    rw [length_saveObjectData]
    exact hbase
  have hbytes : ∀ b ∈ c1Mem, b < 256 := by
    unfold c1Mem
    apply mem_saveObjectData ?_
      (fun od hod => Nat.lt_of_lt_of_le (c1Dir_ids_lt od hod) (by norm_num))
      (by norm_num)
    intro b hb
    rw [List.eq_of_mem_replicate hb]
    norm_num
  have hinv : INV 770 c1Mem := by
    refine ⟨hmemlen, by norm_num, by norm_num, hbytes, ?_, ?_⟩
    · rw [hdecode]
      exact c1Dir_ids_nodup
    · rw [hdecode, c1Dir_sizeSum, c1Dir_length]
      norm_num
  have hfind : findId (loadObjectData 770 c1Mem) 255 = none := by
    rw [hdecode]
    exact findId_none.mpr (fun od hod => Nat.ne_of_lt (c1Dir_ids_lt od hod))
  have hspace : w16 (sizeSum (loadObjectData 770 c1Mem)
      + (1 + 3 * getObjectAmount 770 c1Mem)
      + w16 (List.length [(7 : Nat)]) + 3) ≤ 770 := by
    rw [hdecode, hcount, c1Dir_sizeSum]
    decide
  have heq := @save_fresh_space_eq 770 c1Mem false 255 [7] hfind hspace
  have hdec2 : loadObjectData 770 (save 770 c1Mem false 255 [7]).2 = [] := by
    rw [heq]
    simp only [saveInsert]
    rw [hcount, hdecode]
    have hmod : (255 + 1) % 256 = 0 := by norm_num
    rw [hmod]
    rw [loadObjectData_saveObjectData (by norm_num) (by norm_num)
      (by rw [length_ramToEEPROM]; exact hmemlen) (Nat.zero_le _)
      (fun od hod => by
        rcases List.mem_append.mp hod with hh | hh
        · rw [c1Dir_sizes od hh]; norm_num
        · rcases List.mem_singleton.mp hh with rfl
          decide)]
    simp
  have hnone : findId (loadObjectData 770 (save 770 c1Mem false 255 [7]).2) 255
      = none := by
    rw [hdec2]
    rfl
  have hload := loadOp_none 770 (save 770 c1Mem false 255 [7]).2 255 [0] hnone
  refine ⟨hinv, ?_, ?_, ?_⟩
  · rw [heq]
    rfl
  · rw [hload]
  · rw [hload]

end EZPROM
